import Mathlib

/-!
Verification development for the Herkules directory walker and snapshot
differ (`src/herkules/Herkules.py`, with the worker variants in
`src/herkules/HerkulesWorkerDiff.py` and `src/herkules/HerkulesWorkerFind.py`
being line-for-line copies of the same functions).

The embedding is shallow:

* Python strings are `String`, compared lexicographically by code point via
  executable Bool comparators on `String.data` (identical to the order used
  by the Python `<` on `str`).
* `pathlib.Path` values are `List String` (the tuple of path components);
  Python compares paths componentwise, which is the lexicographic order on
  the component list.  The string form `str(path)` joins components.
* `float` modification times are `Rat`: the diff and cutoff logic only uses
  equality, order and subtraction of timestamps, which are exact here.
* Python `sorted` / `list.sort` is a stable ascending sort; it is modelled
  by a stable insertion sort on an executable `le` relation.
* Python `dict` (insertion ordered, assignment keeps the position of an
  existing key) is an association list with the same update rule.
* Exceptions (`ValueError`, `KeyError`, `AssertionError`) are `Except String`.
-/

namespace Herkules

/-! ## Lexicographic comparators (Python `str` and tuple comparison) -/

/-- Strict lexicographic order on char lists: Python string `<`. -/
def chars_lt : List Char → List Char → Bool
  | _, [] => false
  | [], _ :: _ => true
  | a :: as, b :: bs => if a = b then chars_lt as bs else decide (a < b)

/-- Python string `<` on `String`. -/
def str_lt (a b : String) : Bool :=
  chars_lt a.data b.data

/-- Python string `<=` on `String`. -/
def str_le (a b : String) : Bool :=
  a = b || str_lt a b

/-- Python tuple/`pathlib.Path` `<=` on component lists (lexicographic,
a proper prefix is smaller). -/
def path_le : List String → List String → Bool
  | [], _ => true
  | _ :: _, [] => false
  | a :: as, b :: bs => if a = b then path_le as bs else str_lt a b

/-- Strict component-lexicographic order on paths. -/
def path_lt : List String → List String → Bool
  | _, [] => false
  | [], _ :: _ => true
  | a :: as, b :: bs => if a = b then path_lt as bs else str_lt a b

/-! ## Stable sort (model of Python `sorted` / `list.sort`) -/

/-- Insert `a` in front of the first element `b` with `le a b`; with a total
`le` this is the insertion step of a stable ascending sort. -/
def ordered_insert (le : α → α → Bool) (a : α) : List α → List α
  | [] => [a]
  | b :: l => if le a b then a :: b :: l else b :: ordered_insert le a l

/-- Stable ascending insertion sort; extensionally the sort performed by
Python `sorted`/`list.sort` (both are stable and ascending). -/
def insertion_sort (le : α → α → Bool) : List α → List α
  | [] => []
  | a :: l => ordered_insert le a (insertion_sort le l)

/-! ## Differ data model (`HerkulesTypes.py`) -/

namespace Diff

/-- `Types.HerkulesEntry` as the differ sees it: the path in its string
form (diff identity is `str(entry.path)`), and the optional mtime. -/
structure HerkulesEntry where
  path : String
  mtime : Option Rat
deriving DecidableEq

/-- `Types.HerkulesEntryDiff`: an entry plus the signed mtime delta. -/
structure HerkulesEntryDiff where
  path : String
  mtime : Option Rat
  mtime_diff : Rat
deriving DecidableEq

/-- One element of a diff input list: either a native `HerkulesEntry`, or a
plain JSON-style record whose `path` and `mtime` fields may each be absent
(`none` in the outer option).  A present `mtime` field may itself hold
`null` (`none` in the inner option), as in `HerkulesEntryJSON`. -/
inductive InputEntry where
  | native (entry : HerkulesEntry)
  | jsonDict (path : Option String) (mtime : Option (Option Rat))
deriving DecidableEq

/-- `Types.DiffResult`. -/
structure DiffResult where
  added : List HerkulesEntry
  modified : List HerkulesEntryDiff
  deleted : List HerkulesEntry
deriving DecidableEq

/-! ## `_convert_dict_of_dicts` (Herkules.py lines 184-210) -/

/-- The sort key used by `_convert_dict_of_dicts`.  The Python source
computes `str(operator.attrgetter(...))`: it stringifies the attrgetter
OBJECT itself and never applies it to the entry, so the key is one and the
same string for every entry (the printed repr of the attrgetter).  Only its
constancy matters below. -/
def convert_sort_key (_entry : InputEntry) : String :=
  "operator.attrgetter object"

/-- `sorted(entries, key=...)`: stable ascending sort by the (constant)
key. -/
def convert_sorted (entries : List InputEntry) : List InputEntry :=
  insertion_sort (fun a b => str_le (convert_sort_key a) (convert_sort_key b)) entries

/-- Python `d[k] = v` on an insertion-ordered dict: an existing key keeps
its position and gets the new value; a new key is appended at the end. -/
def dict_insert (d : List (String × HerkulesEntry)) (k : String) (v : HerkulesEntry) :
    List (String × HerkulesEntry) :=
  if d.any (fun p => p.1 = k) then
    d.map (fun p => if p.1 = k then (k, v) else p)
  else
    d ++ [(k, v)]

/-- Python `d[k]` / `k in d` lookup. -/
def dict_find (d : List (String × HerkulesEntry)) (k : String) : Option HerkulesEntry :=
  (d.find? (fun p => p.1 = k)).map Prod.snd

/-- Python `k in d`. -/
def dict_contains (d : List (String × HerkulesEntry)) (k : String) : Bool :=
  d.any (fun p => p.1 = k)

/-- Normalisation of one input element inside the conversion loop: a native
entry is used as is; a JSON record is read field by field, a missing field
raising `KeyError` exactly as `entry_original[...]` would. -/
def entry_of_input : InputEntry → Except String HerkulesEntry
  | .native e => .ok e
  | .jsonDict p m =>
    match p with
    | none => .error "KeyError: path"
    | some path =>
      match m with
      | none => .error "KeyError: mtime"
      | some mtime => .ok ⟨path, mtime⟩

/-- `_convert_dict_of_dicts`: sort (with the constant key), then insert the
entries into a path-string-keyed dict in that order.  The unused
`root_directory` parameter of the Python function is dropped. -/
def convert_dict_of_dicts (entries : List InputEntry) :
    Except String (List (String × HerkulesEntry)) :=
  (convert_sorted entries).foldlM
    (fun d ei => do
      let entry ← entry_of_input ei
      pure (dict_insert d entry.path entry))
    []

/-! ## `_herkules_type_check` (Herkules.py lines 414-434) -/

/-- The representativeness test applied to the first element: a native
`HerkulesEntry` always passes; a plain record passes iff it has both a
`path` and an `mtime` field. -/
def contains_metadata : InputEntry → Bool
  | .native _ => true
  | .jsonDict p m => p.isSome && m.isSome

/-- Statement vocabulary for the claims: a diff input element that is a
plain record missing the `path` field or the `mtime` field (a native
entry carries both by construction). -/
def lacks_required_field : InputEntry → Prop
  | .native _ => False
  | .jsonDict p m => p = none ∨ m = none

/-- The `ValueError` message for an empty input
(`f-string: "{variable_name}" contains no entries`). -/
def no_entries_msg (variable_name : String) : String :=
  "\"" ++ variable_name ++ "\" contains no entries"

/-- The `ValueError` message for a first element without metadata
(`f-string: "{variable_name}" has wrong type ...`). -/
def wrong_type_msg (variable_name : String) : String :=
  "\"" ++ variable_name ++ "\" has wrong type"

/-- `_herkules_type_check`: empty inputs and a metadata-less first element
raise `ValueError` with the messages of the source. -/
def herkules_type_check (entries : List InputEntry) (variable_name : String) :
    Except String Unit :=
  match entries with
  | [] => .error (no_entries_msg variable_name)
  | e :: _ =>
    if contains_metadata e then .ok ()
    else .error (wrong_type_msg variable_name)

/-! ## `herkules_diff` (Herkules.py lines 437-504) -/

/-- The modification test of the diff loop for a path present in both
dicts: both mtimes must be floats (the two `assert isinstance(..., float)`
lines, the actual entry checked first), and a record is produced iff they
differ, carrying the original path and mtime and the delta
`actual.mtime - original.mtime`. -/
def diff_modified_check (original_entry actual_entry : HerkulesEntry) :
    Except String (Option HerkulesEntryDiff) :=
  match actual_entry.mtime with
  | none => .error "AssertionError: actual mtime is not a float"
  | some am =>
    match original_entry.mtime with
    | none => .error "AssertionError: original mtime is not a float"
    | some om =>
      if om ≠ am then
        .ok (some ⟨original_entry.path, original_entry.mtime, am - om⟩)
      else
        .ok none

/-- The first loop of `herkules_diff`: walk the original dict in order,
collecting deleted entries (key absent from actual) and modified entries
(key present with differing mtime). -/
def diff_del_mod (od ad : List (String × HerkulesEntry)) :
    Except String (List HerkulesEntry × List HerkulesEntryDiff) :=
  match od with
  | [] => .ok ([], [])
  | (k, oe) :: rest =>
    match dict_find ad k with
    | none => do
      let (dels, mods) ← diff_del_mod rest ad
      pure (oe :: dels, mods)
    | some ae => do
      let m ← diff_modified_check oe ae
      let (dels, mods) ← diff_del_mod rest ad
      match m with
      | some md => pure (dels, md :: mods)
      | none => pure (dels, mods)

/-- The second loop of `herkules_diff`: walk the actual dict in order and
collect the entries whose key is absent from the original dict. -/
def diff_added (od ad : List (String × HerkulesEntry)) : List HerkulesEntry :=
  (ad.filter (fun p => !dict_contains od p.1)).map Prod.snd

/-- `herkules_diff` with `_herkules_diff_prepare` inlined: type checks (the
original argument first), conversion of both inputs to path-keyed dicts,
then the three-way classification. -/
def herkules_diff (original_entries_list actual_entries_list : List InputEntry) :
    Except String DiffResult := do
  herkules_type_check original_entries_list "original_entries"
  herkules_type_check actual_entries_list "actual_entries"
  let od ← convert_dict_of_dicts original_entries_list
  let ad ← convert_dict_of_dicts actual_entries_list
  let (dels, mods) ← diff_del_mod od ad
  pure ⟨diff_added od ad, mods, dels⟩

end Diff

/-! ## Walker data model and algorithm (Herkules.py lines 56-384)

The filesystem consumed by the walker is a finite tree of files and
directories; `os.scandir` yields the children of a directory in an
arbitrary, filesystem-dependent order, modelled by the order of the
`children` list.  Symlinks are outside this model (every child is a real
file or directory, so the `follow_symlinks` classification flag has no
observable effect and is carried only for completeness).  A `pathlib.Path`
is its component list; `path_name` is `Path.name`.

The Python recursion of `_herkules_recurse` terminates because the
filesystem is finite; here the recursion depth is made explicit through a
fuel argument, and `herkules_recurse` supplies fuel `fs_depth_list
children + 1`, which is exactly the depth of the tree being walked, so the
fuel never runs out on the tree it is applied to (the artificial
"recursion depth exceeded" branch is unreachable from `herkules_recurse`;
the fuel-insensitivity lemmas below make this precise).
-/

namespace Walk

abbrev Path := List String

inductive FSEntry where
  | file (name : String) (mtime : Rat)
  | dir (name : String) (mtime : Rat) (children : List FSEntry)

def FSEntry.name : FSEntry → String
  | .file n _ => n
  | .dir n _ _ => n

def FSEntry.mtime : FSEntry → Rat
  | .file _ m => m
  | .dir _ m _ => m

def FSEntry.children : FSEntry → List FSEntry
  | .file _ _ => []
  | .dir _ _ cs => cs

def FSEntry.isDir : FSEntry → Bool
  | .file _ _ => false
  | .dir _ _ _ => true

def FSEntry.isFile : FSEntry → Bool
  | .file _ _ => true
  | .dir _ _ _ => false

mutual
def fs_depth : FSEntry → Nat
  | .file _ _ => 0
  | .dir _ _ cs => fs_depth_list cs + 1
def fs_depth_list : List FSEntry → Nat
  | [] => 0
  | e :: es => max (fs_depth e) (fs_depth_list es)
end

mutual
def fs_wf : FSEntry → Bool
  | .file _ _ => true
  | .dir _ _ cs => fs_wf_list cs
def fs_wf_list : List FSEntry → Bool
  | [] => true
  | e :: es => fs_wf e && fs_wf_list es && !(es.any (fun x => x.name == e.name))
end

mutual
def all_paths_entry (incl : Bool) (root : Path) : FSEntry → List Path
  | .file n _ => [root ++ [n]]
  | .dir n _ cs => (if incl then [root ++ [n]] else []) ++ all_paths_list incl (root ++ [n]) cs
def all_paths_list (incl : Bool) (root : Path) : List FSEntry → List Path
  | [] => []
  | e :: es => all_paths_entry incl root e ++ all_paths_list incl root es
end

structure HerkulesEntry where
  path : Path
  mtime : Option Rat
deriving DecidableEq

structure Selector where
  excluded_directory_names : List String
  excluded_file_names : List String
  included_file_names : List String
deriving DecidableEq

structure WalkConfig where
  directories_first : Bool
  include_directories : Bool
  follow_symlinks : Bool
  selector : Selector
  modified_since : Option Rat
  call_stat : Bool
deriving DecidableEq

def glob_star (match_rest : List Char → Bool) : List Char → Bool
  | [] => match_rest []
  | c :: s => match_rest (c :: s) || glob_star match_rest s

def glob_match : List Char → List Char → Bool
  | [], s => s.isEmpty
  | p :: ps, s =>
    if p = '*' then glob_star (glob_match ps) s
    else
      match s with
      | [] => false
      | c :: s2 => (p = '?' || p = c) && glob_match ps s2

def path_name (p : Path) : String :=
  (p.getLast?).getD ""

def path_match (p : Path) (pattern : String) : Bool :=
  glob_match pattern.data (path_name p).data

def py_truthy : Option Rat → Bool
  | none => false
  | some x => decide (x ≠ 0)

def is_modified (modified_since modification_time_in_seconds : Option Rat) :
    Except String Bool :=
  match modified_since with
  | none => .ok true
  | some since =>
    match modification_time_in_seconds with
    | none => .error "AssertionError: modification_time_in_seconds is None"
    | some m => .ok (decide (since ≤ m))

def is_directory_included (current_path : Path) (entry : FSEntry) (sel : Selector)
    (modified_since mtime : Option Rat) : Except String Bool :=
  if !entry.isDir then .ok false
  else if sel.excluded_directory_names.contains (path_name current_path) then .ok false
  else is_modified modified_since mtime

def is_file_included (current_path : Path) (entry : FSEntry) (sel : Selector)
    (modified_since mtime : Option Rat) : Except String Bool :=
  if !entry.isFile then .ok false
  else if sel.excluded_file_names.any (fun pat => path_match current_path pat) then .ok false
  else if !(sel.included_file_names.any (fun pat => path_match current_path pat)) then .ok false
  else is_modified modified_since mtime

def herkules_process (root_directory : Path) (children : List FSEntry) (sel : Selector)
    (modified_since : Option Rat) (call_stat : Bool) :
    Except String (List (HerkulesEntry × FSEntry) × List HerkulesEntry) :=
  match children with
  | [] => .ok ([], [])
  | child :: rest => do
    let current_path := root_directory ++ [child.name]
    let mtime : Option Rat :=
      if call_stat || py_truthy modified_since then some child.mtime else none
    let dir_inc ← is_directory_included current_path child sel modified_since mtime
    if dir_inc then do
      let (ds, fs) ← herkules_process root_directory rest sel modified_since call_stat
      pure ((⟨current_path, mtime⟩, child) :: ds, fs)
    else do
      let file_inc ← is_file_included current_path child sel modified_since mtime
      let (ds, fs) ← herkules_process root_directory rest sel modified_since call_stat
      if file_inc then pure (ds, ⟨current_path, mtime⟩ :: fs)
      else pure (ds, fs)

def level_buckets (cfg : WalkConfig) (root_directory : Path) (children : List FSEntry) :
    Except String (List (HerkulesEntry × FSEntry) × List HerkulesEntry) :=
  match herkules_process root_directory children cfg.selector cfg.modified_since cfg.call_stat with
  | .error e => .error e
  | .ok (directories, files) =>
    .ok (insertion_sort (fun a b => path_le a.1.path b.1.path) directories,
         insertion_sort (fun a b => path_le a.path b.path) files)

def walk_dirs_go (cfg : WalkConfig)
    (recurse : Path → List FSEntry → Except String (List HerkulesEntry)) :
    List (HerkulesEntry × FSEntry) → Except String (List HerkulesEntry)
  | [] => .ok []
  | (entry, node) :: rest =>
    match recurse entry.path node.children with
    | .error e => .error e
    | .ok deep =>
      match walk_dirs_go cfg recurse rest with
      | .error e => .error e
      | .ok rest_found =>
        .ok ((if cfg.include_directories then [entry] else []) ++ deep ++ rest_found)

def walk_fuel (cfg : WalkConfig) : Nat → Path → List FSEntry → Except String (List HerkulesEntry)
  | 0, _, _ => .error "recursion depth exceeded"
  | fuel + 1, root_directory, children =>
    match level_buckets cfg root_directory children with
    | .error e => .error e
    | .ok (dirs_sorted, files_sorted) =>
      match walk_dirs_go cfg (walk_fuel cfg fuel) dirs_sorted with
      | .error e => .error e
      | .ok deep_found =>
        .ok ((if cfg.directories_first then [] else files_sorted) ++ deep_found ++
             (if cfg.directories_first then files_sorted else []))

def herkules_recurse (cfg : WalkConfig) (root_directory : Path) (children : List FSEntry) :
    Except String (List HerkulesEntry) :=
  walk_fuel cfg (fs_depth_list children + 1) root_directory children

/-- `_herkules_prepare` restricted to the selector: an empty (falsy)
inclusion list defaults to the match-everything glob; falsy exclusion
lists default to empty lists, which is the identity here. -/
def herkules_prepare_selector (selector : Selector) : Selector :=
  { selector with
    included_file_names :=
      if selector.included_file_names.isEmpty then ["*"]
      else selector.included_file_names }

/-- `herkules_with_metadata` restricted to the walk itself: prepare the
selector, then run the recursive walk (the `relative_to_root`
post-processing step is not involved in any claim). -/
def herkules_with_metadata (cfg : WalkConfig) (root_directory : Path) (children : List FSEntry) :
    Except String (List HerkulesEntry) :=
  herkules_recurse { cfg with selector := herkules_prepare_selector cfg.selector }
    root_directory children

/-- The position of the first entry with path `x` in a walk result
(meaningful when the result's paths are duplicate-free). -/
def path_index (x : Path) : List HerkulesEntry → Nat
  | [] => 0
  | e :: l => if e.path = x then 0 else path_index x l + 1

/-- `x` occurs strictly before `y` in a walk result. -/
def precedes (x y : Path) (l : List HerkulesEntry) : Prop :=
  path_index x l < path_index y l

end Walk

-- Equality of `Except` results is decidable componentwise.
deriving instance DecidableEq for Except

/-! # Theorems

First generic lemmas about the embedding building blocks, then one theorem
per claim (with witnesses and counterexamples where applicable).
-/

/-! ## `Except` computation rules -/

@[simp] theorem except_bind_ok (a : α) (f : α → Except ε β) :
    (Except.ok a >>= f) = f a := rfl

@[simp] theorem except_bind_err (e : ε) (f : α → Except ε β) :
    ((Except.error e : Except ε α) >>= f) = Except.error e := rfl

@[simp] theorem except_map_ok (f : α → β) (a : α) :
    (f <$> (Except.ok a : Except ε α)) = Except.ok (f a) := rfl

@[simp] theorem except_map_err (f : α → β) (e : ε) :
    (f <$> (Except.error e : Except ε α)) = Except.error e := rfl

@[simp] theorem except_pure_eq (a : α) : (pure a : Except ε α) = Except.ok a := rfl

/-! ## Character, string and path comparators -/

theorem chars_lt_irrefl (a : List Char) : chars_lt a a = false := by
  induction a with
  | nil => rfl
  | cons c a ih => simp [chars_lt, ih]

theorem chars_lt_asymm {a b : List Char} (h : chars_lt a b = true) :
    chars_lt b a = false := by
  induction a generalizing b with
  | nil =>
    cases b with
    | nil => simp [chars_lt] at h
    | cons c b => simp [chars_lt]
  | cons c a ih =>
    cases b with
    | nil => simp [chars_lt] at h
    | cons d b =>
      simp only [chars_lt] at h ⊢
      by_cases hcd : c = d
      · subst hcd
        simp only [if_pos rfl] at h ⊢
        exact ih h
      · rw [if_neg hcd] at h
        rw [if_neg (Ne.symm hcd)]
        simp only [decide_eq_true_eq] at h
        exact decide_eq_false (lt_asymm h)

theorem chars_lt_total_of_ne {a b : List Char} (h : a ≠ b) :
    chars_lt a b = true ∨ chars_lt b a = true := by
  induction a generalizing b with
  | nil =>
    cases b with
    | nil => exact absurd rfl h
    | cons d b => left; simp [chars_lt]
  | cons c a ih =>
    cases b with
    | nil => right; simp [chars_lt]
    | cons d b =>
      by_cases hcd : c = d
      · subst hcd
        have hab : a ≠ b := by
          intro hx; exact h (by rw [hx])
        rcases ih hab with h1 | h1
        · left; simp [chars_lt, h1]
        · right; simp [chars_lt, h1]
      · rcases lt_or_gt_of_ne (show c ≠ d from hcd) with hlt | hgt
        · left; simp [chars_lt, if_neg hcd, hlt]
        · right; simp [chars_lt, if_neg (Ne.symm hcd), hgt]

theorem chars_lt_trans {a b c : List Char} (hab : chars_lt a b = true)
    (hbc : chars_lt b c = true) : chars_lt a c = true := by
  induction a generalizing b c with
  | nil =>
    cases c with
    | nil =>
      cases b with
      | nil => simp [chars_lt] at hab
      | cons d b => simp [chars_lt] at hbc
    | cons e c => simp [chars_lt]
  | cons x a ih =>
    cases b with
    | nil => simp [chars_lt] at hab
    | cons y b =>
      cases c with
      | nil => simp [chars_lt] at hbc
      | cons z c =>
        simp only [chars_lt] at hab hbc ⊢
        by_cases hxy : x = y
        · subst hxy
          rw [if_pos rfl] at hab
          by_cases hyz : x = z
          · subst hyz
            rw [if_pos rfl] at hbc ⊢
            exact ih hab hbc
          · rw [if_neg hyz] at hbc ⊢
            exact hbc
        · rw [if_neg hxy] at hab
          simp only [decide_eq_true_eq] at hab
          by_cases hyz : y = z
          · subst hyz
            rw [if_neg hxy]
            simp [hab]
          · rw [if_neg hyz] at hbc
            simp only [decide_eq_true_eq] at hbc
            have hxz : x < z := lt_trans hab hbc
            rw [if_neg (ne_of_lt hxz)]
            simp [hxz]

theorem str_lt_irrefl (a : String) : str_lt a a = false :=
  chars_lt_irrefl a.data

theorem str_lt_asymm {a b : String} (h : str_lt a b = true) : str_lt b a = false :=
  chars_lt_asymm h

theorem str_lt_total_of_ne {a b : String} (h : a ≠ b) :
    str_lt a b = true ∨ str_lt b a = true := by
  apply chars_lt_total_of_ne
  intro hdata
  exact h (String.ext hdata)

theorem str_lt_trans {a b c : String} (hab : str_lt a b = true)
    (hbc : str_lt b c = true) : str_lt a c = true :=
  chars_lt_trans hab hbc

theorem path_le_refl (p : List String) : path_le p p = true := by
  induction p with
  | nil => rfl
  | cons a p ih => simp [path_le, ih]

theorem path_le_total (p q : List String) : path_le p q = true ∨ path_le q p = true := by
  induction p generalizing q with
  | nil => left; rfl
  | cons a p ih =>
    cases q with
    | nil => right; rfl
    | cons b q =>
      by_cases hab : a = b
      · subst hab
        rcases ih q with h | h
        · left; simp [path_le, h]
        · right; simp [path_le, h]
      · rcases str_lt_total_of_ne hab with h | h
        · left; simp [path_le, if_neg hab, h]
        · right; simp [path_le, if_neg (Ne.symm hab), h]

theorem path_le_trans {p q r : List String} (hpq : path_le p q = true)
    (hqr : path_le q r = true) : path_le p r = true := by
  induction p generalizing q r with
  | nil => rfl
  | cons a p ih =>
    cases q with
    | nil => simp [path_le] at hpq
    | cons b q =>
      cases r with
      | nil => simp [path_le] at hqr
      | cons c r =>
        simp only [path_le] at hpq hqr ⊢
        by_cases hab : a = b
        · subst hab
          rw [if_pos rfl] at hpq
          by_cases hbc : a = c
          · subst hbc
            rw [if_pos rfl] at hqr ⊢
            exact ih hpq hqr
          · rw [if_neg hbc] at hqr ⊢
            exact hqr
        · rw [if_neg hab] at hpq
          by_cases hbc : b = c
          · subst hbc
            rw [if_neg hab]
            exact hpq
          · rw [if_neg hbc] at hqr
            have hac : str_lt a c = true := str_lt_trans hpq hqr
            have : a ≠ c := by
              intro hx
              subst hx
              exact absurd hac (by simp [str_lt_irrefl])
            rw [if_neg this]
            exact hac

theorem path_le_antisymm {p q : List String} (hpq : path_le p q = true)
    (hqp : path_le q p = true) : p = q := by
  induction p generalizing q with
  | nil =>
    cases q with
    | nil => rfl
    | cons b q => simp [path_le] at hqp
  | cons a p ih =>
    cases q with
    | nil => simp [path_le] at hpq
    | cons b q =>
      simp only [path_le] at hpq hqp
      by_cases hab : a = b
      · subst hab
        rw [if_pos rfl] at hpq hqp
        rw [ih hpq hqp]
      · rw [if_neg hab] at hpq
        rw [if_neg (Ne.symm hab)] at hqp
        exact absurd hqp (by simp [str_lt_asymm hpq])

theorem path_lt_iff {p q : List String} :
    path_lt p q = true ↔ path_le p q = true ∧ p ≠ q := by
  induction p generalizing q with
  | nil =>
    cases q with
    | nil => simp [path_lt, path_le]
    | cons b q => simp [path_lt, path_le]
  | cons a p ih =>
    cases q with
    | nil => simp [path_lt, path_le]
    | cons b q =>
      by_cases hab : a = b
      · subst hab
        simp only [path_lt, path_le, eq_self_iff_true, if_true]
        rw [ih]
        constructor
        · rintro ⟨h1, h2⟩
          refine ⟨h1, fun hx => h2 ?_⟩
          injection hx
        · rintro ⟨h1, h2⟩
          refine ⟨h1, fun hx => h2 ?_⟩
          rw [hx]
      · simp only [path_lt, path_le, if_neg hab]
        constructor
        · intro h
          refine ⟨h, fun hx => hab ?_⟩
          injection hx
        · rintro ⟨h, _⟩
          exact h

/-! ## Insertion sort -/

theorem ordered_insert_perm (le : α → α → Bool) (a : α) (l : List α) :
    (ordered_insert le a l).Perm (a :: l) := by
  induction l with
  | nil => simp [ordered_insert]
  | cons b l ih =>
    simp only [ordered_insert]
    split
    · exact List.Perm.refl _
    · exact (ih.cons b).trans (List.Perm.swap a b l)

theorem insertion_sort_perm (le : α → α → Bool) (l : List α) :
    (insertion_sort le l).Perm l := by
  induction l with
  | nil => exact List.Perm.refl _
  | cons a l ih =>
    exact (ordered_insert_perm le a (insertion_sort le l)).trans (ih.cons a)

theorem mem_insertion_sort {le : α → α → Bool} {a : α} {l : List α} :
    a ∈ insertion_sort le l ↔ a ∈ l :=
  (insertion_sort_perm le l).mem_iff

theorem ordered_insert_pairwise (le : α → α → Bool)
    (htrans : ∀ a b c, le a b = true → le b c = true → le a c = true)
    (htot : ∀ a b, le a b = true ∨ le b a = true)
    (a : α) (l : List α) (h : l.Pairwise (fun x y => le x y = true)) :
    (ordered_insert le a l).Pairwise (fun x y => le x y = true) := by
  induction l with
  | nil => simp [ordered_insert]
  | cons b l ih =>
    rw [List.pairwise_cons] at h
    obtain ⟨hb, hl⟩ := h
    simp only [ordered_insert]
    split
    · rename_i hab
      refine List.Pairwise.cons ?_ (List.Pairwise.cons hb hl)
      intro x hx
      rcases List.mem_cons.mp hx with rfl | hx
      · exact hab
      · exact htrans a b x hab (hb x hx)
    · rename_i hab
      refine List.Pairwise.cons ?_ (ih hl)
      intro x hx
      rcases List.mem_cons.mp ((ordered_insert_perm le a l).mem_iff.mp hx) with rfl | hx
      · rcases htot x b with h1 | h1
        · exact absurd h1 (by simpa using hab)
        · exact h1
      · exact hb x hx

theorem insertion_sort_pairwise (le : α → α → Bool)
    (htrans : ∀ a b c, le a b = true → le b c = true → le a c = true)
    (htot : ∀ a b, le a b = true ∨ le b a = true)
    (l : List α) :
    (insertion_sort le l).Pairwise (fun x y => le x y = true) := by
  induction l with
  | nil => simp [insertion_sort]
  | cons a l ih =>
    exact ordered_insert_pairwise le htrans htot a (insertion_sort le l) ih

theorem insertion_sort_of_all_le (le : α → α → Bool)
    (h : ∀ a b, le a b = true) (l : List α) :
    insertion_sort le l = l := by
  induction l with
  | nil => rfl
  | cons a l ih =>
    show ordered_insert le a (insertion_sort le l) = a :: l
    rw [ih]
    cases l with
    | nil => rfl
    | cons b l => simp [ordered_insert, h a b]

/-! ## Differ: conversion and dictionary lemmas -/

namespace Diff

/-- The sort in `_convert_dict_of_dicts` is a no-op: its key is constant,
and a stable sort with equal keys preserves the input order. -/
theorem convert_sorted_eq (entries : List InputEntry) : convert_sorted entries = entries :=
  insertion_sort_of_all_le _ (fun a b => by simp [str_le, convert_sort_key]) entries

theorem dict_find_nil (k : String) : dict_find [] k = none := rfl

theorem dict_find_cons (pr : String × HerkulesEntry) (d : List (String × HerkulesEntry))
    (k : String) :
    dict_find (pr :: d) k = if pr.1 = k then some pr.2 else dict_find d k := by
  by_cases h : pr.1 = k
  · simp [dict_find, List.find?_cons_of_pos, h]
  · simp [dict_find, List.find?_cons_of_neg, h]

theorem dict_contains_eq_isSome (d : List (String × HerkulesEntry)) (k : String) :
    dict_contains d k = (dict_find d k).isSome := by
  induction d with
  | nil => rfl
  | cons pr d ih =>
    rw [dict_find_cons]
    by_cases h : pr.1 = k
    · simp [dict_contains, h]
    · simp only [dict_contains, List.any_cons] at ih ⊢
      simp [h, ih]

theorem dict_find_map_update_ne {k k' : String} (hne : k' ≠ k) (v : HerkulesEntry)
    (d : List (String × HerkulesEntry)) :
    dict_find (d.map (fun p => if p.1 = k then (k, v) else p)) k' = dict_find d k' := by
  induction d with
  | nil => rfl
  | cons pr d ih =>
    simp only [List.map_cons]
    by_cases h : pr.1 = k
    · rw [if_pos h, dict_find_cons, dict_find_cons]
      have hkk : ¬ ((k, v) : String × HerkulesEntry).1 = k' := fun hx => hne hx.symm
      have hpk : ¬ pr.1 = k' := by
        rw [h]
        exact fun hx => hne hx.symm
      rw [if_neg hkk, if_neg hpk]
      exact ih
    · rw [if_neg h, dict_find_cons, dict_find_cons]
      by_cases h2 : pr.1 = k'
      · rw [if_pos h2, if_pos h2]
      · rw [if_neg h2, if_neg h2]
        exact ih

theorem dict_find_map_update_eq {k : String} (v : HerkulesEntry)
    (d : List (String × HerkulesEntry)) (h : dict_contains d k = true) :
    dict_find (d.map (fun p => if p.1 = k then (k, v) else p)) k = some v := by
  induction d with
  | nil => simp [dict_contains] at h
  | cons pr d ih =>
    simp only [List.map_cons]
    by_cases hpr : pr.1 = k
    · rw [if_pos hpr, dict_find_cons]
      simp
    · rw [if_neg hpr, dict_find_cons, if_neg hpr]
      apply ih
      simp only [dict_contains, List.any_cons] at h
      simpa [dict_contains, hpr] using h

theorem dict_find_append_single (d : List (String × HerkulesEntry)) (k : String)
    (v : HerkulesEntry) (k' : String) :
    dict_find (d ++ [(k, v)]) k' =
      match dict_find d k' with
      | some x => some x
      | none => if k = k' then some v else none := by
  induction d with
  | nil =>
    rw [List.nil_append, dict_find_cons]
    by_cases h : k = k'
    · simp [h, dict_find_nil]
    · simp [h, dict_find_nil]
  | cons pr d ih =>
    rw [List.cons_append, dict_find_cons, dict_find_cons]
    by_cases h : pr.1 = k'
    · simp [h]
    · simp only [if_neg h]
      exact ih

/-- The single dict-update rule: inserting `(k, v)` makes lookup of `k`
yield `v` and leaves every other key unchanged. -/
theorem dict_find_insert (d : List (String × HerkulesEntry)) (k : String) (v : HerkulesEntry)
    (k' : String) :
    dict_find (dict_insert d k v) k' = if k' = k then some v else dict_find d k' := by
  by_cases hk : d.any (fun p => p.1 = k)
  · simp only [dict_insert, if_pos hk]
    by_cases h : k' = k
    · subst h
      rw [if_pos rfl]
      exact dict_find_map_update_eq v d hk
    · rw [if_neg h]
      exact dict_find_map_update_ne h v d
  · simp only [dict_insert, if_neg hk]
    rw [dict_find_append_single]
    have hnone : dict_find d k = none := by
      have : dict_contains d k = false := Bool.eq_false_iff.mpr hk
      rw [dict_contains_eq_isSome] at this
      exact Option.not_isSome_iff_eq_none.mp (by simp [this])
    by_cases h : k' = k
    · subst h
      rw [hnone, if_pos rfl]
    · cases hfind : dict_find d k' with
      | some x => rw [if_neg h]
      | none => rw [if_neg (fun hx : k = k' => h hx.symm), if_neg h]

/-- Keys are preserved by in-place update and extended by append. -/
theorem dict_insert_keys (d : List (String × HerkulesEntry)) (k : String) (v : HerkulesEntry) :
    (dict_insert d k v).map Prod.fst =
      if dict_contains d k then d.map Prod.fst else d.map Prod.fst ++ [k] := by
  by_cases hk : d.any (fun p => p.1 = k)
  · simp only [dict_insert, dict_contains, if_pos hk, List.map_map]
    congr 1
    funext p
    by_cases h : p.1 = k
    · simp [Function.comp, h]
    · simp [Function.comp, h]
  · simp [dict_insert, dict_contains, hk]

theorem dict_insert_keys_nodup (d : List (String × HerkulesEntry)) (k : String)
    (v : HerkulesEntry) (h : (d.map Prod.fst).Nodup) :
    ((dict_insert d k v).map Prod.fst).Nodup := by
  rw [dict_insert_keys]
  by_cases hk : dict_contains d k = true
  · simpa [hk] using h
  · rw [if_neg (by simp [hk])]
    rw [List.nodup_append]
    refine ⟨h, List.nodup_singleton k, ?_⟩
    intro x hx hmem
    rcases List.mem_singleton.mp hmem with rfl
    rcases List.mem_map.mp hx with ⟨pr, hpr, hfst⟩
    exact hk (List.any_eq_true.mpr ⟨pr, hpr, decide_eq_true hfst⟩)

/-- Folding the insertions over native entries: the dict build loop. -/
theorem convert_native (l : List HerkulesEntry) :
    convert_dict_of_dicts (l.map InputEntry.native) =
      .ok (l.foldl (fun d e => dict_insert d e.path e) []) := by
  rw [convert_dict_of_dicts, convert_sorted_eq]
  suffices h : ∀ (d : List (String × HerkulesEntry)),
      (l.map InputEntry.native).foldlM
        (fun d ei => do
          let entry ← entry_of_input ei
          pure (dict_insert d entry.path entry)) d =
      .ok (l.foldl (fun d e => dict_insert d e.path e) d) from h []
  induction l with
  | nil => intro d; rfl
  | cons e l ih =>
    intro d
    simp only [List.map_cons, List.foldlM_cons, List.foldl_cons, entry_of_input,
      except_bind_ok, except_pure_eq]
    exact ih (dict_insert d e.path e)

/-- Lookup after the build loop: the last occurrence of a path in the input
wins; a path that never occurs falls back to the initial dict. -/
theorem dict_build_find (l : List HerkulesEntry) (d : List (String × HerkulesEntry))
    (p : String) :
    dict_find (l.foldl (fun d e => dict_insert d e.path e) d) p =
      match (l.filter (fun e => e.path = p)).getLast? with
      | some e => some e
      | none => dict_find d p := by
  induction l generalizing d with
  | nil => simp
  | cons e l ih =>
    rw [List.foldl_cons, ih]
    by_cases hp : e.path = p
    · rw [List.filter_cons_of_pos (by simp [hp])]
      rw [List.getLast?_cons]
      cases hrest : (l.filter (fun e => e.path = p)).getLast? with
      | some x => simp
      | none =>
        simp only [Option.getD_none]
        rw [dict_find_insert, if_pos hp.symm]
    · rw [List.filter_cons_of_neg (by simp [hp])]
      cases hrest : (l.filter (fun e => e.path = p)).getLast? with
      | some x => simp
      | none =>
        rw [dict_find_insert, if_neg (fun hx => hp hx.symm)]

theorem dict_build_keys_nodup (l : List HerkulesEntry) (d : List (String × HerkulesEntry))
    (h : (d.map Prod.fst).Nodup) :
    ((l.foldl (fun d e => dict_insert d e.path e) d).map Prod.fst).Nodup := by
  induction l generalizing d with
  | nil => exact h
  | cons e l ih => exact ih _ (dict_insert_keys_nodup d e.path e h)

/-- When the input paths are duplicate-free the build loop only ever
appends, producing the association list of the input in its given order. -/
theorem dict_build_of_nodup (l : List HerkulesEntry) (d : List (String × HerkulesEntry))
    (h : (d.map Prod.fst ++ l.map (fun e => e.path)).Nodup) :
    l.foldl (fun d e => dict_insert d e.path e) d = d ++ l.map (fun e => (e.path, e)) := by
  induction l generalizing d with
  | nil => simp
  | cons e l ih =>
    rw [List.foldl_cons]
    have hnotin : ¬ d.any (fun p => p.1 = e.path) = true := by
      intro hc
      rcases List.any_eq_true.mp hc with ⟨pr, hpr, hfst⟩
      rcases List.nodup_append.mp h with ⟨_, _, hdisj⟩
      exact hdisj (List.mem_map.mpr ⟨pr, hpr, of_decide_eq_true hfst⟩) (by simp)
    have hins : dict_insert d e.path e = d ++ [(e.path, e)] := by
      simp only [dict_insert]
      rw [if_neg hnotin]
    rw [hins, ih]
    · simp
    · simpa [List.map_append, List.append_assoc] using h

/-! ## Differ: error message classification -/

theorem entry_of_input_error (ei : InputEntry) (m : String)
    (h : entry_of_input ei = .error m) :
    m = "KeyError: path" ∨ m = "KeyError: mtime" := by
  cases ei with
  | native e => simp [entry_of_input] at h
  | jsonDict p mt =>
    cases p with
    | none =>
      simp only [entry_of_input, Except.error.injEq] at h
      exact Or.inl h.symm
    | some pv =>
      cases mt with
      | none =>
        simp only [entry_of_input, Except.error.injEq] at h
        exact Or.inr h.symm
      | some mv => simp [entry_of_input] at h

theorem convert_fold_error {m : String} (entries : List InputEntry) :
    ∀ (d : List (String × HerkulesEntry)),
      entries.foldlM
        (fun d ei => do
          let entry ← entry_of_input ei
          pure (dict_insert d entry.path entry)) d = .error m →
      m = "KeyError: path" ∨ m = "KeyError: mtime" := by
  induction entries with
  | nil =>
    intro d hd
    simp [List.foldlM] at hd
  | cons e l ih =>
    intro d hd
    rw [List.foldlM_cons] at hd
    cases hei : entry_of_input e with
    | error em =>
      simp only [hei, except_bind_err, Except.error.injEq] at hd
      subst hd
      exact entry_of_input_error e em hei
    | ok entry =>
      simp only [hei, except_bind_ok, except_pure_eq] at hd
      exact ih (dict_insert d entry.path entry) hd

theorem convert_error (entries : List InputEntry) (m : String)
    (h : convert_dict_of_dicts entries = .error m) :
    m = "KeyError: path" ∨ m = "KeyError: mtime" := by
  rw [convert_dict_of_dicts, convert_sorted_eq] at h
  exact convert_fold_error entries [] h

theorem diff_modified_check_error (oe ae : HerkulesEntry) (m : String)
    (h : diff_modified_check oe ae = .error m) :
    m = "AssertionError: actual mtime is not a float" ∨
      m = "AssertionError: original mtime is not a float" := by
  cases hae : ae.mtime with
  | none =>
    simp only [diff_modified_check, hae, Except.error.injEq] at h
    exact Or.inl h.symm
  | some am =>
    cases hoe : oe.mtime with
    | none =>
      simp only [diff_modified_check, hae, hoe, Except.error.injEq] at h
      exact Or.inr h.symm
    | some om =>
      simp only [diff_modified_check, hae, hoe] at h
      split at h <;> simp at h

theorem diff_del_mod_error (od ad : List (String × HerkulesEntry)) (m : String)
    (h : diff_del_mod od ad = .error m) :
    m = "AssertionError: actual mtime is not a float" ∨
      m = "AssertionError: original mtime is not a float" := by
  induction od with
  | nil => simp [diff_del_mod] at h
  | cons pr od ih =>
    obtain ⟨k, oe⟩ := pr
    simp only [diff_del_mod] at h
    cases hfind : dict_find ad k with
    | none =>
      simp only [hfind] at h
      cases hrest : diff_del_mod od ad with
      | error em =>
        simp only [hrest, except_bind_err, Except.error.injEq] at h
        subst h
        exact ih hrest
      | ok pa =>
        obtain ⟨dels, mods⟩ := pa
        simp [hrest] at h
    | some ae =>
      simp only [hfind] at h
      cases hchk : diff_modified_check oe ae with
      | error em =>
        simp only [hchk, except_bind_err, Except.error.injEq] at h
        subst h
        exact diff_modified_check_error oe ae em hchk
      | ok mm =>
        simp only [hchk, except_bind_ok] at h
        cases hrest : diff_del_mod od ad with
        | error em =>
          simp only [hrest, except_bind_err, Except.error.injEq] at h
          subst h
          exact ih hrest
        | ok pa =>
          obtain ⟨dels, mods⟩ := pa
          cases mm <;> simp [hrest] at h

end Diff

namespace Diff

/-- Step-by-step values of `herkules_diff`: the two type checks fire in
order (original before actual), then the conversions and the diff loops. -/
theorem herkules_diff_nil_original (a : List InputEntry) :
    herkules_diff [] a = .error (no_entries_msg "original_entries") := rfl

theorem herkules_diff_bad_original (e : InputEntry) (o a : List InputEntry)
    (h : contains_metadata e = false) :
    herkules_diff (e :: o) a = .error (wrong_type_msg "original_entries") := by
  simp [herkules_diff, herkules_type_check, h]

theorem herkules_diff_nil_actual (e : InputEntry) (o : List InputEntry)
    (h : contains_metadata e = true) :
    herkules_diff (e :: o) [] = .error (no_entries_msg "actual_entries") := by
  simp [herkules_diff, herkules_type_check, h]

theorem herkules_diff_bad_actual (e e2 : InputEntry) (o a : List InputEntry)
    (h : contains_metadata e = true) (h2 : contains_metadata e2 = false) :
    herkules_diff (e :: o) (e2 :: a) = .error (wrong_type_msg "actual_entries") := by
  simp [herkules_diff, herkules_type_check, h, h2]

theorem herkules_diff_checked (e e2 : InputEntry) (o a : List InputEntry)
    (h : contains_metadata e = true) (h2 : contains_metadata e2 = true) :
    herkules_diff (e :: o) (e2 :: a) =
      (do
        let od ← convert_dict_of_dicts (e :: o)
        let ad ← convert_dict_of_dicts (e2 :: a)
        let pr ← diff_del_mod od ad
        pure ⟨diff_added od ad, pr.2, pr.1⟩) := by
  simp [herkules_diff, herkules_type_check, h, h2]

/-- Any error produced after the two type checks is a `KeyError` from the
conversions or an `AssertionError` from the modified check. -/
theorem diff_tail_error (o a : List InputEntry) (m : String)
    (h : (do
        let od ← convert_dict_of_dicts o
        let ad ← convert_dict_of_dicts a
        let pr ← diff_del_mod od ad
        pure (⟨diff_added od ad, pr.2, pr.1⟩ : DiffResult)) = Except.error m) :
    m = "KeyError: path" ∨ m = "KeyError: mtime" ∨
      m = "AssertionError: actual mtime is not a float" ∨
      m = "AssertionError: original mtime is not a float" := by
  cases hconv : convert_dict_of_dicts o with
  | error em =>
    simp only [hconv, except_bind_err, Except.error.injEq] at h
    subst h
    rcases convert_error o em hconv with h1 | h1
    · exact Or.inl h1
    · exact Or.inr (Or.inl h1)
  | ok od =>
    simp only [hconv, except_bind_ok] at h
    cases hconv2 : convert_dict_of_dicts a with
    | error em =>
      simp only [hconv2, except_bind_err, Except.error.injEq] at h
      subst h
      rcases convert_error a em hconv2 with h1 | h1
      · exact Or.inl h1
      · exact Or.inr (Or.inl h1)
    | ok ad =>
      simp only [hconv2, except_bind_ok] at h
      cases hdm : diff_del_mod od ad with
      | error em =>
        simp only [hdm, except_bind_err, Except.error.injEq] at h
        subst h
        rcases diff_del_mod_error od ad em hdm with h1 | h1
        · exact Or.inr (Or.inr (Or.inl h1))
        · exact Or.inr (Or.inr (Or.inr h1))
      | ok pr =>
        simp [hdm] at h

/-- The first-element check fails exactly on a plain record with a missing
required field. -/
theorem contains_metadata_iff_lacks (e : InputEntry) :
    contains_metadata e = false ↔ lacks_required_field e := by
  cases e with
  | native en => simp [contains_metadata, lacks_required_field]
  | jsonDict p m =>
    cases p <;> cases m <;> simp [contains_metadata, lacks_required_field]

end Diff

/-! ## Claims C1, C4, C5, C6 -/

/-- C1: the claim says the three output lists of `herkules_diff` are in
ascending order of the path string because the inputs are sorted by path
string before insertion.  The code does not sort: the sort key
`str(operator.attrgetter(...))` is a constant (last conjunct), so the
mapping and hence the outputs follow the input order.  On the original
list `[b, a]` (with `a`, `b`, `z` all carrying mtime 1) against the actual
list `[z]`, the deleted list comes out as `[b, a]`, which is not in
ascending path-string order since `b` is neither smaller than nor equal to
`a`. -/
theorem C1_deleted_follows_input_order :
    Diff.herkules_diff
        [Diff.InputEntry.native ⟨"b", some 1⟩, Diff.InputEntry.native ⟨"a", some 1⟩]
        [Diff.InputEntry.native ⟨"z", some 1⟩] =
      .ok ⟨[⟨"z", some 1⟩], [], [⟨"b", some 1⟩, ⟨"a", some 1⟩]⟩ ∧
    str_lt "b" "a" = false ∧ "b" ≠ "a" ∧
    (∀ x y : Diff.InputEntry, Diff.convert_sort_key x = Diff.convert_sort_key y) :=
  ⟨by decide, by decide, by decide, fun x y => rfl⟩

/-- C4 counterexample: the claim says the malformed-entries check passes
whenever the first element has at least one of the two fields.  A first
element with a `path` field but no `mtime` field (so not lacking both)
is nevertheless rejected with the wrong-type error. -/
theorem C4_counterexample :
    Diff.herkules_diff [Diff.InputEntry.jsonDict (some "a") none]
        [Diff.InputEntry.native ⟨"a", some 1⟩] =
      .error (Diff.wrong_type_msg "original_entries") ∧
    ¬ ((some "a" : Option String) = none ∧ (none : Option (Option Rat)) = none) :=
  ⟨by decide, by simp⟩

/-- C4 (amended): `herkules_diff` fails with the malformed-entries error
iff the first element of the original input is a plain record lacking the
path field or the mtime field, or the original passes that check (also
when it is empty the malformed error is not reached) and the first element
of the actual input is such a record.  A native entry always passes; a
plain record passes only with both fields present. -/
theorem C4_malformed_first_element (original actual : List Diff.InputEntry) :
    ((Diff.herkules_diff original actual = .error (Diff.wrong_type_msg "original_entries") ∨
      Diff.herkules_diff original actual = .error (Diff.wrong_type_msg "actual_entries")) ↔
      ((∃ e rest, original = e :: rest ∧ Diff.lacks_required_field e) ∨
       ((∃ e rest, original = e :: rest ∧ ¬ Diff.lacks_required_field e) ∧
        (∃ e rest, actual = e :: rest ∧ Diff.lacks_required_field e)))) := by
  cases original with
  | nil =>
    rw [Diff.herkules_diff_nil_original]
    constructor
    · rintro (h | h) <;> simp [Diff.no_entries_msg, Diff.wrong_type_msg] at h
    · rintro (⟨e, rest, h, _⟩ | ⟨⟨e, rest, h, _⟩, _⟩) <;> cases h
  | cons e o =>
    by_cases hce : Diff.contains_metadata e = true
    · have hne : ¬ Diff.lacks_required_field e := by
        rw [← Diff.contains_metadata_iff_lacks]
        simp [hce]
      cases actual with
      | nil =>
        rw [Diff.herkules_diff_nil_actual e o hce]
        constructor
        · rintro (h | h) <;> simp [Diff.no_entries_msg, Diff.wrong_type_msg] at h
        · rintro (⟨e', rest', h, hl⟩ | ⟨_, ⟨e', rest', h, _⟩⟩)
          · obtain ⟨he, _⟩ := List.cons.inj h
            exact absurd (he ▸ hl) hne
          · cases h
      | cons e2 a =>
        by_cases hce2 : Diff.contains_metadata e2 = true
        · rw [Diff.herkules_diff_checked e e2 o a hce hce2]
          have hne2 : ¬ Diff.lacks_required_field e2 := by
            rw [← Diff.contains_metadata_iff_lacks]
            simp [hce2]
          constructor
          · rintro (h | h) <;>
              rcases Diff.diff_tail_error _ _ _ h with h1 | h1 | h1 | h1 <;>
                simp [Diff.wrong_type_msg] at h1
          · rintro (⟨e', rest', h, hl⟩ | ⟨_, ⟨e', rest', h, hl⟩⟩)
            · obtain ⟨he, _⟩ := List.cons.inj h
              exact absurd (he ▸ hl) hne
            · obtain ⟨he, _⟩ := List.cons.inj h
              exact absurd (he ▸ hl) hne2
        · have hce2f : Diff.contains_metadata e2 = false := Bool.eq_false_iff.mpr hce2
          rw [Diff.herkules_diff_bad_actual e e2 o a hce hce2f]
          have hl2 : Diff.lacks_required_field e2 :=
            (Diff.contains_metadata_iff_lacks e2).mp hce2f
          constructor
          · intro _
            exact Or.inr ⟨⟨e, o, rfl, hne⟩, ⟨e2, a, rfl, hl2⟩⟩
          · intro _
            exact Or.inr rfl
    · have hcef : Diff.contains_metadata e = false := Bool.eq_false_iff.mpr hce
      rw [Diff.herkules_diff_bad_original e o actual hcef]
      have hl : Diff.lacks_required_field e :=
        (Diff.contains_metadata_iff_lacks e).mp hcef
      constructor
      · intro _
        exact Or.inl ⟨e, o, rfl, hl⟩
      · intro _
        exact Or.inl rfl

/-- C5: within one input of `herkules_diff`, duplicate path keys collapse
silently: the conversion returns a mapping (no error) with duplicate-free
keys, and the duplicated path maps to the entry occurring last in the
input order. -/
theorem C5_duplicate_paths_last_wins (l : List Diff.HerkulesEntry) (p : String)
    (h : ∃ e ∈ l, e.path = p) :
    ∃ d e, Diff.convert_dict_of_dicts (l.map Diff.InputEntry.native) = .ok d ∧
      (l.filter (fun e => e.path = p)).getLast? = some e ∧
      Diff.dict_find d p = some e ∧
      (d.map Prod.fst).Nodup := by
  refine ⟨l.foldl (fun d e => Diff.dict_insert d e.path e) [], ?_⟩
  have hne : l.filter (fun e => e.path = p) ≠ [] := by
    rcases h with ⟨e, hel, hep⟩
    intro hx
    have hmem : e ∈ l.filter (fun e => e.path = p) :=
      List.mem_filter.mpr ⟨hel, by simp [hep]⟩
    rw [hx] at hmem
    exact absurd hmem (List.not_mem_nil e)
  obtain ⟨e, he⟩ := Option.isSome_iff_exists.mp
    (by rwa [List.getLast?_isSome])
  refine ⟨e, Diff.convert_native l, he, ?_, Diff.dict_build_keys_nodup l [] (by simp)⟩
  rw [Diff.dict_build_find, he]

/-- C5 witness: on the input `[(a,1), (b,2), (a,3)]` the duplicated path
`a` resolves to the later entry `(a,3)`. -/
theorem C5_witness :
    ∃ d e,
      Diff.convert_dict_of_dicts
        ([⟨"a", some 1⟩, ⟨"b", some 2⟩, ⟨"a", some 3⟩].map Diff.InputEntry.native) = .ok d ∧
      (([⟨"a", some 1⟩, ⟨"b", some 2⟩, ⟨"a", some 3⟩] :
          List Diff.HerkulesEntry).filter (fun e => e.path = "a")).getLast? = some e ∧
      Diff.dict_find d "a" = some e ∧
      (d.map Prod.fst).Nodup :=
  C5_duplicate_paths_last_wins [⟨"a", some 1⟩, ⟨"b", some 2⟩, ⟨"a", some 3⟩] "a" (by decide)

/-- C6 counterexample: the claim says the empty-collection error is raised
whenever at least one input is empty.  With a malformed non-empty original
and an empty actual, the wrong-type error is raised instead (and its
message differs from both empty-collection messages). -/
theorem C6_counterexample :
    Diff.herkules_diff [Diff.InputEntry.jsonDict none none] [] =
      .error (Diff.wrong_type_msg "original_entries") ∧
    Diff.wrong_type_msg "original_entries" ≠ Diff.no_entries_msg "original_entries" ∧
    Diff.wrong_type_msg "original_entries" ≠ Diff.no_entries_msg "actual_entries" := by
  refine ⟨by decide, by decide, by decide⟩

/-- C6 (amended): the empty-collection error for the original argument is
raised iff the original input is empty (checked first, before any
diffing); the one for the actual argument is raised iff the original is
non-empty and passes the first-element check and the actual input is
empty.  The message names the empty argument. -/
theorem C6_empty_input_error (original actual : List Diff.InputEntry) :
    (Diff.herkules_diff original actual = .error (Diff.no_entries_msg "original_entries") ↔
      original = []) ∧
    (Diff.herkules_diff original actual = .error (Diff.no_entries_msg "actual_entries") ↔
      (∃ e rest, original = e :: rest ∧ Diff.contains_metadata e = true) ∧ actual = []) := by
  cases original with
  | nil =>
    rw [Diff.herkules_diff_nil_original]
    refine ⟨by simp, ?_, ?_⟩
    · intro h
      simp [Diff.no_entries_msg] at h
    · rintro ⟨⟨e, rest, h, _⟩, _⟩
      cases h
  | cons e o =>
    by_cases hce : Diff.contains_metadata e = true
    · cases actual with
      | nil =>
        rw [Diff.herkules_diff_nil_actual e o hce]
        refine ⟨⟨?_, ?_⟩, ?_, ?_⟩
        · intro h
          simp [Diff.no_entries_msg] at h
        · intro h
          cases h
        · intro _
          exact ⟨⟨e, o, rfl, hce⟩, rfl⟩
        · intro _
          rfl
      | cons e2 a =>
        by_cases hce2 : Diff.contains_metadata e2 = true
        · rw [Diff.herkules_diff_checked e e2 o a hce hce2]
          refine ⟨⟨?_, ?_⟩, ?_, ?_⟩
          · intro h
            rcases Diff.diff_tail_error _ _ _ h with h1 | h1 | h1 | h1 <;>
              simp [Diff.no_entries_msg] at h1
          · intro h
            cases h
          · intro h
            rcases Diff.diff_tail_error _ _ _ h with h1 | h1 | h1 | h1 <;>
              simp [Diff.no_entries_msg] at h1
          · rintro ⟨_, h⟩
            cases h
        · rw [Diff.herkules_diff_bad_actual e e2 o a hce (Bool.eq_false_iff.mpr hce2)]
          refine ⟨⟨?_, ?_⟩, ?_, ?_⟩
          · intro h
            simp [Diff.no_entries_msg, Diff.wrong_type_msg] at h
          · intro h
            cases h
          · intro h
            simp [Diff.no_entries_msg, Diff.wrong_type_msg] at h
          · rintro ⟨_, h⟩
            cases h
    · rw [Diff.herkules_diff_bad_original e o actual (Bool.eq_false_iff.mpr hce)]
      refine ⟨⟨?_, ?_⟩, ?_, ?_⟩
      · intro h
        simp [Diff.no_entries_msg, Diff.wrong_type_msg] at h
      · intro h
        cases h
      · intro h
        simp [Diff.no_entries_msg, Diff.wrong_type_msg] at h
      · rintro ⟨⟨e', rest', h, hct⟩, _⟩
        obtain ⟨he, _⟩ := List.cons.inj h
        exact absurd (he ▸ hct) (by simp [hce])

namespace Diff

/-! ## Differ: the diff loops on well-formed dictionaries -/

theorem dict_find_mem {ad : List (String × HerkulesEntry)} {k : String} {ae : HerkulesEntry}
    (h : dict_find ad k = some ae) : ∃ k', (k', ae) ∈ ad := by
  induction ad with
  | nil => simp [dict_find_nil] at h
  | cons pr ad ih =>
    rw [dict_find_cons] at h
    by_cases hpr : pr.1 = k
    · rw [if_pos hpr] at h
      obtain rfl : pr.2 = ae := by injection h
      exact ⟨pr.1, by simp⟩
    · rw [if_neg hpr] at h
      rcases ih h with ⟨k', hk'⟩
      exact ⟨k', List.mem_cons_of_mem pr hk'⟩

/-- Two entries of a duplicate-free-by-path list with equal paths are
equal. -/
theorem mem_path_nodup_unique {l : List HerkulesEntry}
    (h : (l.map (fun e => e.path)).Nodup) {e1 e2 : HerkulesEntry}
    (h1 : e1 ∈ l) (h2 : e2 ∈ l) (hp : e1.path = e2.path) : e1 = e2 := by
  induction l with
  | nil => cases h1
  | cons e0 l ih =>
    rw [List.map_cons, List.nodup_cons] at h
    obtain ⟨hnot, hl⟩ := h
    cases List.mem_cons.mp h1 with
    | inl he1 =>
      cases List.mem_cons.mp h2 with
      | inl he2 => rw [he1, he2]
      | inr he2 =>
        exfalso
        apply hnot
        have hpe : e0.path = e2.path := by
          rw [← he1]
          exact hp
        rw [hpe]
        exact List.mem_map_of_mem (fun e => e.path) he2
    | inr he1 =>
      cases List.mem_cons.mp h2 with
      | inl he2 =>
        exfalso
        apply hnot
        have hpe : e0.path = e1.path := by
          rw [he2] at hp
          exact hp.symm
        rw [hpe]
        exact List.mem_map_of_mem (fun e => e.path) he1
      | inr he2 => exact ih hl he1 he2

theorem dict_find_map_pair {l : List HerkulesEntry}
    (h : (l.map (fun e => e.path)).Nodup) {e : HerkulesEntry} (he : e ∈ l) :
    dict_find (l.map (fun e => (e.path, e))) e.path = some e := by
  induction l with
  | nil => cases he
  | cons e0 l ih =>
    rw [List.map_cons, List.nodup_cons] at h
    obtain ⟨hnot, hl⟩ := h
    rw [List.map_cons, dict_find_cons]
    rcases List.mem_cons.mp he with rfl | he
    · rw [if_pos rfl]
    · have hne : ¬ e0.path = e.path := by
        intro hx
        exact hnot (hx ▸ List.mem_map_of_mem (fun e => e.path) he)
      rw [if_neg hne]
      exact ih hl he

theorem dict_contains_map_pair {l : List HerkulesEntry} {e : HerkulesEntry} (he : e ∈ l) :
    dict_contains (l.map (fun e => (e.path, e))) e.path = true := by
  refine List.any_eq_true.mpr ⟨(e.path, e), List.mem_map_of_mem _ he, by simp⟩

/-- The first diff loop, on dictionaries whose entries all carry a float
mtime: it never raises, deletes the entries whose key is absent from the
actual dict (in order), and collects a modified record for every key
present on both sides with differing mtimes (in order). -/
theorem diff_del_mod_ok (od ad : List (String × HerkulesEntry))
    (ha : ∀ pr ∈ ad, pr.2.mtime.isSome = true) (ho : ∀ pr ∈ od, pr.2.mtime.isSome = true) :
    diff_del_mod od ad = .ok
      ((od.filter (fun pr => (dict_find ad pr.1).isNone)).map Prod.snd,
       od.filterMap (fun pr =>
         match dict_find ad pr.1, pr.2.mtime with
         | some ae, some om =>
           match ae.mtime with
           | some am =>
             if om ≠ am then some ⟨pr.2.path, pr.2.mtime, am - om⟩ else none
           | none => none
         | _, _ => none)) := by
  induction od with
  | nil => rfl
  | cons pr od ih =>
    obtain ⟨k, oe⟩ := pr
    have hoe : oe.mtime.isSome = true := ho (k, oe) (by simp)
    obtain ⟨om, hom⟩ := Option.isSome_iff_exists.mp hoe
    have ihh := ih (fun pr hpr => ho pr (List.mem_cons_of_mem _ hpr))
    simp only [diff_del_mod]
    cases hfind : dict_find ad k with
    | none =>
      simp only [hfind, ihh, except_bind_ok, except_pure_eq]
      rw [List.filter_cons_of_pos (by simp [hfind])]
      rw [List.filterMap_cons_none (by simp [hfind])]
      simp
    | some ae =>
      obtain ⟨k', hmem⟩ := dict_find_mem hfind
      have hsome : ae.mtime.isSome = true := ha (k', ae) hmem
      obtain ⟨am, ham⟩ := Option.isSome_iff_exists.mp hsome
      by_cases hne : om = am
      · have hchk : diff_modified_check oe ae = .ok none := by
          simp [diff_modified_check, ham, hom, hne]
        simp only [hfind, hchk, except_bind_ok, ihh, except_pure_eq]
        simp [List.filter_cons, List.filterMap_cons, hfind, hom, ham, hne]
      · have hchk : diff_modified_check oe ae =
            .ok (some ⟨oe.path, oe.mtime, am - om⟩) := by
          simp [diff_modified_check, ham, hom, hne]
        simp only [hfind, hchk, except_bind_ok, ihh, except_pure_eq]
        simp [List.filter_cons, List.filterMap_cons, hfind, hom, ham, hne]

end Diff

/-- C2: for every path present in both inputs (with duplicate-free paths
and metadata-carrying entries on both sides), the path appears in the
modified list iff the two mtimes differ under strict inequality; every
modified record for that path carries the original path and mtime and the
delta `actual.mtime - original.mtime`; with equal mtimes the path appears
in none of the three lists.  The final conjunct is the concrete scenario
of the claim: original `[(a,100), (b,100), (c,100)]` against actual
`[(a,100), (b,150), (d,100)]` yields `deleted=[(c,100)]`,
`modified=[(b,100,+50)]`, `added=[(d,100)]`. -/
theorem C2_modified_iff_mtime_differs
    (original actual : List Diff.HerkulesEntry) (r : Diff.DiffResult)
    (hno : (original.map (fun e => e.path)).Nodup)
    (hna : (actual.map (fun e => e.path)).Nodup)
    (hmo : ∀ e ∈ original, e.mtime.isSome = true)
    (hma : ∀ e ∈ actual, e.mtime.isSome = true)
    (hr : Diff.herkules_diff (original.map Diff.InputEntry.native)
        (actual.map Diff.InputEntry.native) = .ok r)
    (p : String) (eo ea : Diff.HerkulesEntry)
    (heo : eo ∈ original) (hea : ea ∈ actual)
    (hpo : eo.path = p) (hpa : ea.path = p) :
    ((∃ d ∈ r.modified, d.path = p) ↔ eo.mtime ≠ ea.mtime) ∧
    (∀ d ∈ r.modified, d.path = p →
      d.mtime = eo.mtime ∧
      ∃ om am, eo.mtime = some om ∧ ea.mtime = some am ∧ d.mtime_diff = am - om) ∧
    (eo.mtime = ea.mtime →
      (∀ x ∈ r.added, x.path ≠ p) ∧ (∀ d ∈ r.modified, d.path ≠ p) ∧
      (∀ x ∈ r.deleted, x.path ≠ p)) ∧
    Diff.herkules_diff
        ([⟨"a", some 100⟩, ⟨"b", some 100⟩, ⟨"c", some 100⟩].map Diff.InputEntry.native)
        ([⟨"a", some 100⟩, ⟨"b", some 150⟩, ⟨"d", some 100⟩].map Diff.InputEntry.native) =
      .ok ⟨[⟨"d", some 100⟩], [⟨"b", some 100, 50⟩], [⟨"c", some 100⟩]⟩ := by
  have hconcrete :
      Diff.herkules_diff
        ([⟨"a", some 100⟩, ⟨"b", some 100⟩, ⟨"c", some 100⟩].map Diff.InputEntry.native)
        ([⟨"a", some 100⟩, ⟨"b", some 150⟩, ⟨"d", some 100⟩].map Diff.InputEntry.native) =
      .ok ⟨[⟨"d", some 100⟩], [⟨"b", some 100, 50⟩], [⟨"c", some 100⟩]⟩ := by
    simp [Diff.herkules_diff, Diff.herkules_type_check, Diff.contains_metadata,
      Diff.convert_dict_of_dicts, Diff.convert_sorted, insertion_sort, ordered_insert,
      Diff.convert_sort_key, str_le, str_lt, chars_lt, Diff.entry_of_input, Diff.dict_insert,
      Diff.dict_find, Diff.dict_contains, Diff.diff_del_mod, Diff.diff_added,
      Diff.diff_modified_check, List.foldlM, List.any, List.map, List.filter, List.find?]
    norm_num
  -- characterize the two dictionaries
  have hconvo : Diff.convert_dict_of_dicts (original.map Diff.InputEntry.native) =
      .ok (original.map (fun e => (e.path, e))) := by
    rw [Diff.convert_native, Diff.dict_build_of_nodup original [] (by simpa using hno)]
    simp
  have hconva : Diff.convert_dict_of_dicts (actual.map Diff.InputEntry.native) =
      .ok (actual.map (fun e => (e.path, e))) := by
    rw [Diff.convert_native, Diff.dict_build_of_nodup actual [] (by simpa using hna)]
    simp
  have hod : ∀ pr ∈ original.map (fun e => (e.path, e)), pr.2.mtime.isSome = true := by
    intro pr hpr
    rcases List.mem_map.mp hpr with ⟨e, he, rfl⟩
    exact hmo e he
  have had : ∀ pr ∈ actual.map (fun e => (e.path, e)), pr.2.mtime.isSome = true := by
    intro pr hpr
    rcases List.mem_map.mp hpr with ⟨e, he, rfl⟩
    exact hma e he
  have hdm := Diff.diff_del_mod_ok (original.map (fun e => (e.path, e)))
    (actual.map (fun e => (e.path, e))) had hod
  -- evaluate the pipeline inside hr
  obtain ⟨eo0, o0, horig⟩ : ∃ x xs, original = x :: xs := by
    cases original with
    | nil => cases heo
    | cons x xs => exact ⟨x, xs, rfl⟩
  obtain ⟨ea0, a0, hact⟩ : ∃ x xs, actual = x :: xs := by
    cases actual with
    | nil => cases hea
    | cons x xs => exact ⟨x, xs, rfl⟩
  rw [horig, List.map_cons, hact, List.map_cons,
    Diff.herkules_diff_checked (Diff.InputEntry.native eo0) (Diff.InputEntry.native ea0)
      (o0.map Diff.InputEntry.native) (a0.map Diff.InputEntry.native) rfl rfl,
    ← List.map_cons, ← horig, ← List.map_cons, ← hact, hconvo, hconva] at hr
  simp only [except_bind_ok] at hr
  rw [hdm] at hr
  simp only [except_bind_ok, except_pure_eq, Except.ok.injEq] at hr
  subst hr
  -- abbreviations
  set od := original.map (fun e => (e.path, e)) with hodd
  set ad := actual.map (fun e => (e.path, e)) with hadd
  have hfa : Diff.dict_find ad p = some ea := by
    rw [← hpa]
    exact Diff.dict_find_map_pair hna hea
  have hfo : Diff.dict_find od p = some eo := by
    rw [← hpo]
    exact Diff.dict_find_map_pair hno heo
  obtain ⟨om, hom⟩ := Option.isSome_iff_exists.mp (hmo eo heo)
  obtain ⟨am, ham⟩ := Option.isSome_iff_exists.mp (hma ea hea)
  -- forward analysis of a modified record with path p
  have hforward : ∀ d : Diff.HerkulesEntryDiff, d ∈ (od.filterMap (fun pr =>
      match Diff.dict_find ad pr.1, pr.2.mtime with
      | some ae, some omv =>
        match ae.mtime with
        | some amv =>
          if omv ≠ amv then
            some (⟨pr.2.path, pr.2.mtime, amv - omv⟩ : Diff.HerkulesEntryDiff)
          else none
        | none => none
      | _, _ => none)) → d.path = p →
      d.mtime = eo.mtime ∧ d.mtime_diff = am - om ∧ om ≠ am := by
    intro d hd hdp
    rcases List.mem_filterMap.mp hd with ⟨pr, hpr, hfpr⟩
    rcases List.mem_map.mp hpr with ⟨e', he', rfl⟩
    rcases hmf : Diff.dict_find ad e'.path with _ | ae'
    · simp [hmf] at hfpr
    · rcases hme : e'.mtime with _ | om'
      · simp [hmf, hme] at hfpr
      · rcases hmae : ae'.mtime with _ | am'
        · simp [hmf, hme, hmae] at hfpr
        · by_cases hne : om' = am'
          · simp [hmf, hme, hmae, hne] at hfpr
          · simp only [hmf, hme, hmae, ne_eq, hne, not_false_eq_true, if_true,
              Option.some.injEq] at hfpr
            subst hfpr
            have hdpath : e'.path = p := hdp
            have he'eq : e' = eo :=
              Diff.mem_path_nodup_unique hno he' heo (by rw [hdpath, hpo])
            rw [hdpath] at hmf
            have hae : ae' = ea := by
              rw [hmf] at hfa
              injection hfa
            have homom : om' = om := by
              have h1 : some om' = some om := by
                rw [← hme, he'eq, hom]
              injection h1
            have hamam : am' = am := by
              have h2 : some am' = some am := by
                rw [← hmae, hae, ham]
              injection h2
            refine ⟨?_, ?_, ?_⟩
            · show some om' = eo.mtime
              rw [homom, hom]
            · show am' - om' = am - om
              rw [homom, hamam]
            · rw [← homom, ← hamam]
              exact hne
  refine ⟨⟨?_, ?_⟩, ?_, ?_, hconcrete⟩
  · -- modified → mtimes differ
    rintro ⟨d, hd, hdp⟩
    obtain ⟨_, _, hne⟩ := hforward d hd hdp
    rw [hom, ham]
    intro hx
    injection hx with hx
    exact hne hx
  · -- mtimes differ → modified
    intro hne
    have hne' : om ≠ am := by
      intro hx
      apply hne
      rw [hom, ham, hx]
    refine ⟨⟨eo.path, eo.mtime, am - om⟩, ?_, hpo⟩
    refine List.mem_filterMap.mpr ⟨(eo.path, eo), List.mem_map_of_mem _ heo, ?_⟩
    have hfa2 : Diff.dict_find ad eo.path = some ea := by
      rw [hpo]
      exact hfa
    simp [hfa2, hom, ham, hne']
  · -- every modified record with path p carries the original data
    intro d hd hdp
    obtain ⟨hmt, hdiff, _⟩ := hforward d hd hdp
    exact ⟨hmt, om, am, hom, ham, by rw [hdiff]⟩
  · -- equal mtimes: in none of the three lists
    intro heq
    refine ⟨?_, ?_, ?_⟩
    · intro x hx hxp
      rcases List.mem_map.mp hx with ⟨pr, hprf, rfl⟩
      rcases List.mem_filter.mp hprf with ⟨hpr, hcond⟩
      rcases List.mem_map.mp hpr with ⟨e', he', rfl⟩
      have he'eq : e' = ea := Diff.mem_path_nodup_unique hna he' hea (by rw [hxp, hpa])
      have hcont : Diff.dict_contains od (e'.path, e').1 = true := by
        have := Diff.dict_contains_map_pair heo
        rw [show (e'.path, e').1 = eo.path from by rw [he'eq, hpa, hpo]]
        exact this
      rw [hcont] at hcond
      simp at hcond
    · intro d hd hdp
      obtain ⟨_, _, hne⟩ := hforward d hd hdp
      apply hne
      rw [hom, ham] at heq
      injection heq
    · intro x hx hxp
      rcases List.mem_map.mp hx with ⟨pr, hprf, rfl⟩
      rcases List.mem_filter.mp hprf with ⟨hpr, hcond⟩
      rcases List.mem_map.mp hpr with ⟨e', he', rfl⟩
      have he'eq : e' = eo := Diff.mem_path_nodup_unique hno he' heo (by rw [hxp, hpo])
      have : Diff.dict_find ad (e'.path, e').1 = some ea := by
        rw [show (e'.path, e').1 = p from by rw [he'eq, hpo]]
        exact hfa
      rw [this] at hcond
      simp at hcond

/-- C2 witness: original `[(a,1)]` against actual `[(a,1), (b,2)]` at path
`a` (present on both sides with equal mtimes). -/
theorem C2_witness :
    ((∃ d ∈ (Diff.DiffResult.mk [⟨"b", some 2⟩] [] []).modified, d.path = "a") ↔
      (some 1 : Option Rat) ≠ some 1) ∧
    (∀ d ∈ (Diff.DiffResult.mk [⟨"b", some 2⟩] [] []).modified, d.path = "a" →
      d.mtime = (some 1 : Option Rat) ∧
      ∃ om am, (some 1 : Option Rat) = some om ∧ (some 1 : Option Rat) = some am ∧
        d.mtime_diff = am - om) ∧
    ((some 1 : Option Rat) = some 1 →
      (∀ x ∈ (Diff.DiffResult.mk [⟨"b", some 2⟩] [] []).added, x.path ≠ "a") ∧
      (∀ d ∈ (Diff.DiffResult.mk [⟨"b", some 2⟩] [] []).modified, d.path ≠ "a") ∧
      (∀ x ∈ (Diff.DiffResult.mk [⟨"b", some 2⟩] [] []).deleted, x.path ≠ "a")) ∧
    Diff.herkules_diff
        ([⟨"a", some 100⟩, ⟨"b", some 100⟩, ⟨"c", some 100⟩].map Diff.InputEntry.native)
        ([⟨"a", some 100⟩, ⟨"b", some 150⟩, ⟨"d", some 100⟩].map Diff.InputEntry.native) =
      .ok ⟨[⟨"d", some 100⟩], [⟨"b", some 100, 50⟩], [⟨"c", some 100⟩]⟩ := by
  have h := C2_modified_iff_mtime_differs
    [⟨"a", some 1⟩] [⟨"a", some 1⟩, ⟨"b", some 2⟩] ⟨[⟨"b", some 2⟩], [], []⟩
    (by decide) (by decide) (by decide) (by decide) (by decide)
    "a" ⟨"a", some 1⟩ ⟨"a", some 1⟩ (by decide) (by decide) (by decide) (by decide)
  exact h

/-! ## Walker: tree well-formedness and depth -/

namespace Walk

theorem fs_wf_list_cons {e : FSEntry} {l : List FSEntry} (h : fs_wf_list (e :: l) = true) :
    fs_wf e = true ∧ fs_wf_list l = true ∧ e.name ∉ l.map FSEntry.name := by
  rw [fs_wf_list] at h
  simp only [Bool.and_eq_true, Bool.not_eq_true'] at h
  obtain ⟨⟨h1, h2⟩, h3⟩ := h
  refine ⟨h1, h2, ?_⟩
  intro hmem
  rcases List.mem_map.mp hmem with ⟨c, hc, hname⟩
  have : l.any (fun x => x.name == e.name) = true :=
    List.any_eq_true.mpr ⟨c, hc, by simp [hname]⟩
  rw [this] at h3
  cases h3

theorem fs_wf_list_mem {l : List FSEntry} (h : fs_wf_list l = true) {c : FSEntry}
    (hc : c ∈ l) : fs_wf c = true := by
  induction l with
  | nil => cases hc
  | cons e l ih =>
    obtain ⟨h1, h2, _⟩ := fs_wf_list_cons h
    rcases List.mem_cons.mp hc with rfl | hc
    · exact h1
    · exact ih h2 hc

theorem fs_wf_children {c : FSEntry} (h : fs_wf c = true) :
    fs_wf_list c.children = true := by
  cases c with
  | file n m => rfl
  | dir n m cs => exact h

theorem fs_wf_list_names {l : List FSEntry} (h : fs_wf_list l = true) :
    (l.map FSEntry.name).Nodup := by
  induction l with
  | nil => simp
  | cons e l ih =>
    obtain ⟨_, h2, h3⟩ := fs_wf_list_cons h
    rw [List.map_cons, List.nodup_cons]
    exact ⟨h3, ih h2⟩

theorem fs_depth_list_mem {l : List FSEntry} {c : FSEntry} (hc : c ∈ l) :
    fs_depth c ≤ fs_depth_list l := by
  induction l with
  | nil => cases hc
  | cons e l ih =>
    rw [fs_depth_list]
    rcases List.mem_cons.mp hc with rfl | hc
    · exact le_max_left _ _
    · exact le_trans (ih hc) (le_max_right _ _)

theorem fs_depth_dir_children {c : FSEntry} (h : c.isDir = true) :
    fs_depth_list c.children + 1 = fs_depth c := by
  cases c with
  | file n m => cases h
  | dir n m cs => rfl

/-! ## Walker: the match-everything glob -/

theorem glob_star_isEmpty (s : List Char) :
    glob_star (glob_match []) s = true := by
  induction s with
  | nil => rfl
  | cons c s ih =>
    rw [glob_star]
    simp [ih]

theorem glob_match_star (s : List Char) : glob_match ['*'] s = true := by
  show (if '*' = '*' then glob_star (glob_match []) s
    else match s with
      | [] => false
      | c :: s2 => ('*' = '?' || '*' = c) && glob_match [] s2) = true
  rw [if_pos rfl]
  exact glob_star_isEmpty s

theorem path_match_star (p : Path) : path_match p "*" = true :=
  glob_match_star (path_name p).data

/-! ## Walker: the per-level scan -/

theorem herkules_process_ok {root : Path} {children : List FSEntry}
    {sel : Selector} {ms : Option Rat} {cs : Bool}
    {ds : List (HerkulesEntry × FSEntry)} {fs : List HerkulesEntry}
    (h : herkules_process root children sel ms cs = .ok (ds, fs)) :
    (∀ pr ∈ ds, pr.2 ∈ children ∧ pr.2.isDir = true ∧ pr.1.path = root ++ [pr.2.name]) ∧
    (∀ e ∈ fs, ∃ c ∈ children, c.isFile = true ∧ e.path = root ++ [c.name]) ∧
    ((ds.map (fun pr => pr.1.path) ++ fs.map (fun e => e.path)).Subperm
      (children.map (fun c => root ++ [c.name]))) := by
  induction children generalizing ds fs with
  | nil =>
    simp only [herkules_process, Except.ok.injEq, Prod.mk.injEq] at h
    obtain ⟨h1, h2⟩ := h
    subst h1
    subst h2
    refine ⟨by simp, by simp, by simp⟩
  | cons child rest ih =>
    simp only [herkules_process] at h
    cases hdi : is_directory_included (root ++ [child.name]) child sel ms
        (if cs || py_truthy ms then some child.mtime else none) with
    | error e =>
      rw [hdi] at h
      simp at h
    | ok b =>
      rw [hdi] at h
      simp only [except_bind_ok] at h
      cases b with
      | true =>
        rw [if_pos rfl] at h
        cases hrest : herkules_process root rest sel ms cs with
        | error e =>
          rw [hrest] at h
          simp at h
        | ok pr0 =>
          obtain ⟨ds', fs'⟩ := pr0
          rw [hrest] at h
          simp only [except_bind_ok, except_pure_eq, Except.ok.injEq, Prod.mk.injEq] at h
          obtain ⟨hds, hfs⟩ := h
          subst hds
          subst hfs
          obtain ⟨ihd, ihf, ihsp⟩ := ih hrest
          have hdir : child.isDir = true := by
            by_contra hx
            rw [is_directory_included] at hdi
            rw [if_pos (by simp [Bool.eq_false_iff.mpr hx])] at hdi
            cases hdi
          refine ⟨?_, ?_, ?_⟩
          · intro pr hpr
            rcases List.mem_cons.mp hpr with rfl | hpr
            · exact ⟨List.mem_cons_self _ _, hdir, rfl⟩
            · obtain ⟨hmem, hd, hp⟩ := ihd pr hpr
              exact ⟨List.mem_cons_of_mem _ hmem, hd, hp⟩
          · intro e he
            obtain ⟨c, hc, hf, hp⟩ := ihf e he
            exact ⟨c, List.mem_cons_of_mem _ hc, hf, hp⟩
          · simpa [List.subperm_cons] using ihsp
      | false =>
        rw [if_neg (by simp)] at h
        cases hfi : is_file_included (root ++ [child.name]) child sel ms
            (if cs || py_truthy ms then some child.mtime else none) with
        | error e =>
          rw [hfi] at h
          simp at h
        | ok fb =>
          rw [hfi] at h
          simp only [except_bind_ok] at h
          cases hrest : herkules_process root rest sel ms cs with
          | error e =>
            rw [hrest] at h
            simp at h
          | ok pr0 =>
            obtain ⟨ds', fs'⟩ := pr0
            rw [hrest] at h
            simp only [except_bind_ok] at h
            obtain ⟨ihd, ihf, ihsp⟩ := ih hrest
            cases fb with
            | true =>
              rw [if_pos rfl] at h
              simp only [except_pure_eq, Except.ok.injEq, Prod.mk.injEq] at h
              obtain ⟨hds, hfs⟩ := h
              subst hds
              subst hfs
              have hfile : child.isFile = true := by
                by_contra hx
                rw [is_file_included] at hfi
                rw [if_pos (by simp [Bool.eq_false_iff.mpr hx])] at hfi
                cases hfi
              refine ⟨?_, ?_, ?_⟩
              · intro pr hpr
                obtain ⟨hmem, hd, hp⟩ := ihd pr hpr
                exact ⟨List.mem_cons_of_mem _ hmem, hd, hp⟩
              · intro e he
                rcases List.mem_cons.mp he with rfl | he
                · exact ⟨child, List.mem_cons_self _ _, hfile, rfl⟩
                · obtain ⟨c, hc, hf, hp⟩ := ihf e he
                  exact ⟨c, List.mem_cons_of_mem _ hc, hf, hp⟩
              · rw [List.map_cons, List.map_cons]
                refine (List.Perm.subperm_right List.perm_middle).mpr ?_
                exact (List.subperm_cons _).mpr ihsp
            | false =>
              rw [if_neg (by simp)] at h
              simp only [except_pure_eq, Except.ok.injEq, Prod.mk.injEq] at h
              obtain ⟨hds, hfs⟩ := h
              subst hds
              subst hfs
              refine ⟨?_, ?_, ?_⟩
              · intro pr hpr
                obtain ⟨hmem, hd, hp⟩ := ihd pr hpr
                exact ⟨List.mem_cons_of_mem _ hmem, hd, hp⟩
              · intro e he
                obtain ⟨c, hc, hf, hp⟩ := ihf e he
                exact ⟨c, List.mem_cons_of_mem _ hc, hf, hp⟩
              · rw [List.map_cons]
                exact ihsp.cons_right _

end Walk

namespace Walk

/-! ## Walker: sorted per-level buckets -/

theorem level_buckets_ok {cfg : WalkConfig} {root : Path} {children : List FSEntry}
    {ds : List (HerkulesEntry × FSEntry)} {fs : List HerkulesEntry}
    (h : level_buckets cfg root children = .ok (ds, fs)) :
    ∃ ds0 fs0,
      herkules_process root children cfg.selector cfg.modified_since cfg.call_stat =
        .ok (ds0, fs0) ∧
      ds = insertion_sort (fun a b => path_le a.1.path b.1.path) ds0 ∧
      fs = insertion_sort (fun a b => path_le a.path b.path) fs0 := by
  cases hp : herkules_process root children cfg.selector cfg.modified_since cfg.call_stat with
  | error e =>
    simp only [level_buckets, hp] at h
    cases h
  | ok pr =>
    obtain ⟨ds0, fs0⟩ := pr
    simp only [level_buckets, hp, Except.ok.injEq, Prod.mk.injEq] at h
    exact ⟨ds0, fs0, rfl, h.1.symm, h.2.symm⟩

theorem level_buckets_facts {cfg : WalkConfig} {root : Path} {children : List FSEntry}
    {ds : List (HerkulesEntry × FSEntry)} {fs : List HerkulesEntry}
    (hwf : fs_wf_list children = true)
    (h : level_buckets cfg root children = .ok (ds, fs)) :
    (∀ pr ∈ ds, pr.2 ∈ children ∧ pr.2.isDir = true ∧ pr.1.path = root ++ [pr.2.name]) ∧
    (∀ e ∈ fs, ∃ c ∈ children, c.isFile = true ∧ e.path = root ++ [c.name]) ∧
    (ds.map (fun pr => pr.1.path) ++ fs.map (fun e => e.path)).Nodup := by
  obtain ⟨ds0, fs0, hp, hds, hfs⟩ := level_buckets_ok h
  obtain ⟨hd0, hf0, hsp⟩ := herkules_process_ok hp
  have hpermd : ds.Perm ds0 := by
    rw [hds]
    exact insertion_sort_perm _ ds0
  have hpermf : fs.Perm fs0 := by
    rw [hfs]
    exact insertion_sort_perm _ fs0
  have hchildpaths : (children.map (fun c => root ++ [c.name])).Nodup := by
    have hinj : Function.Injective (fun n : String => root ++ [n]) := by
      intro a b hab
      simpa using List.append_cancel_left hab
    have hmapped := List.Nodup.map hinj (fs_wf_list_names hwf)
    rwa [List.map_map] at hmapped
  have hnodup0 : (ds0.map (fun pr => pr.1.path) ++ fs0.map (fun e => e.path)).Nodup := by
    obtain ⟨l, hl1, hl2⟩ := hsp
    exact hl1.nodup (List.Nodup.sublist hl2 hchildpaths)
  refine ⟨?_, ?_, ?_⟩
  · intro pr hpr
    exact hd0 pr (hpermd.mem_iff.mp hpr)
  · intro e he
    exact hf0 e (hpermf.mem_iff.mp he)
  · exact ((hpermd.map (fun pr => pr.1.path)).append
      (hpermf.map (fun e => e.path))).symm.nodup hnodup0

theorem level_buckets_sorted {cfg : WalkConfig} {root : Path} {children : List FSEntry}
    {ds : List (HerkulesEntry × FSEntry)} {fs : List HerkulesEntry}
    (h : level_buckets cfg root children = .ok (ds, fs)) :
    (ds.map (fun pr => pr.1.path)).Pairwise (fun p q => path_le p q = true) ∧
    (fs.map (fun e => e.path)).Pairwise (fun p q => path_le p q = true) := by
  obtain ⟨ds0, fs0, hp, hds, hfs⟩ := level_buckets_ok h
  constructor
  · rw [hds, List.pairwise_map]
    exact insertion_sort_pairwise (fun a b => path_le a.1.path b.1.path)
      (fun a b c hab hbc => path_le_trans
        (show path_le a.1.path b.1.path = true from hab)
        (show path_le b.1.path c.1.path = true from hbc))
      (fun a b => path_le_total a.1.path b.1.path) ds0
  · rw [hfs, List.pairwise_map]
    exact insertion_sort_pairwise (fun a b => path_le a.path b.path)
      (fun a b c hab hbc => path_le_trans
        (show path_le a.path b.path = true from hab)
        (show path_le b.path c.path = true from hbc))
      (fun a b => path_le_total a.path b.path) fs0

/-! ## Walker: position bookkeeping -/

theorem path_index_append_left {l1 : List HerkulesEntry} (l2 : List HerkulesEntry)
    {x : Path} (h : ∃ e ∈ l1, e.path = x) :
    path_index x (l1 ++ l2) = path_index x l1 ∧ path_index x l1 < l1.length := by
  induction l1 with
  | nil => simp at h
  | cons e l1 ih =>
    by_cases he : e.path = x
    · simp [path_index, he]
    · rcases h with ⟨e', he', hx⟩
      rcases List.mem_cons.mp he' with rfl | he'
      · exact absurd hx he
      · obtain ⟨ih1, ih2⟩ := ih ⟨e', he', hx⟩
        constructor
        · rw [List.cons_append]
          simp only [path_index, he, if_false, ih1]
        · simp only [path_index, he, if_false, List.length_cons]
          exact Nat.succ_lt_succ ih2

theorem length_le_path_index {l1 : List HerkulesEntry} (l2 : List HerkulesEntry)
    {x : Path} (h : ∀ e ∈ l1, e.path ≠ x) :
    l1.length ≤ path_index x (l1 ++ l2) := by
  induction l1 with
  | nil => simp
  | cons e l1 ih =>
    rw [List.cons_append]
    simp only [path_index, h e (List.mem_cons_self e l1), if_false, List.length_cons]
    exact Nat.succ_le_succ (ih (fun e' he' => h e' (List.mem_cons_of_mem e he')))

theorem precedes_append {l1 l2 : List HerkulesEntry} {x y : HerkulesEntry}
    (hx : x ∈ l1) (hy : ∀ e ∈ l1, e.path ≠ y.path) :
    precedes x.path y.path (l1 ++ l2) := by
  obtain ⟨h1, h2⟩ := path_index_append_left l2 ⟨x, hx, rfl⟩
  have h3 := length_le_path_index l2 hy
  rw [precedes, h1]
  exact lt_of_lt_of_le h2 h3

/-! ## Walker: the directory loop as a function of the recursion -/

theorem walk_dirs_go_ok_cons {cfg : WalkConfig}
    {recurse : Path → List FSEntry → Except String (List HerkulesEntry)}
    {entry : HerkulesEntry} {node : FSEntry} {rest : List (HerkulesEntry × FSEntry)}
    {res : List HerkulesEntry}
    (h : walk_dirs_go cfg recurse ((entry, node) :: rest) = .ok res) :
    ∃ deep rest_found, recurse entry.path node.children = .ok deep ∧
      walk_dirs_go cfg recurse rest = .ok rest_found ∧
      res = (if cfg.include_directories then [entry] else []) ++ deep ++ rest_found := by
  cases hr : recurse entry.path node.children with
  | error e =>
    simp only [walk_dirs_go, hr] at h
    cases h
  | ok deep =>
    simp only [walk_dirs_go, hr] at h
    cases hrest : walk_dirs_go cfg recurse rest with
    | error e =>
      rw [hrest] at h
      cases h
    | ok rest_found =>
      rw [hrest] at h
      simp only [Except.ok.injEq] at h
      exact ⟨deep, rest_found, rfl, rfl, h.symm⟩

theorem walk_dirs_go_congr {cfg : WalkConfig}
    {rec1 rec2 : Path → List FSEntry → Except String (List HerkulesEntry)}
    (l : List (HerkulesEntry × FSEntry))
    (h : ∀ pr ∈ l, rec1 pr.1.path pr.2.children = rec2 pr.1.path pr.2.children) :
    walk_dirs_go cfg rec1 l = walk_dirs_go cfg rec2 l := by
  induction l with
  | nil => rfl
  | cons pr rest ih =>
    obtain ⟨entry, node⟩ := pr
    rw [walk_dirs_go, walk_dirs_go,
      h (entry, node) (List.mem_cons_self _ _),
      ih (fun pr hpr => h pr (List.mem_cons_of_mem _ hpr))]

theorem walk_dirs_go_perm {cfg1 cfg2 : WalkConfig}
    (hincl : cfg1.include_directories = cfg2.include_directories)
    {rec1 rec2 : Path → List FSEntry → Except String (List HerkulesEntry)}
    (l : List (HerkulesEntry × FSEntry))
    (hrec : ∀ pr ∈ l, ∀ r1 r2, rec1 pr.1.path pr.2.children = .ok r1 →
      rec2 pr.1.path pr.2.children = .ok r2 → r1.Perm r2) :
    ∀ {r1 r2 : List HerkulesEntry}, walk_dirs_go cfg1 rec1 l = .ok r1 →
      walk_dirs_go cfg2 rec2 l = .ok r2 → r1.Perm r2 := by
  induction l with
  | nil =>
    intro r1 r2 h1 h2
    simp only [walk_dirs_go, Except.ok.injEq] at h1 h2
    subst h1
    subst h2
    exact List.Perm.refl _
  | cons pr rest ih =>
    intro r1 r2 h1 h2
    obtain ⟨entry, node⟩ := pr
    obtain ⟨deep1, rf1, hd1, hr1, he1⟩ := walk_dirs_go_ok_cons h1
    obtain ⟨deep2, rf2, hd2, hr2, he2⟩ := walk_dirs_go_ok_cons h2
    subst he1
    subst he2
    have hdp : deep1.Perm deep2 :=
      hrec (entry, node) (List.mem_cons_self _ _) deep1 deep2 hd1 hd2
    have hrp : rf1.Perm rf2 :=
      ih (fun pr hpr => hrec pr (List.mem_cons_of_mem _ hpr)) hr1 hr2
    rw [hincl, List.append_assoc, List.append_assoc]
    exact (List.Perm.refl _).append (hdp.append hrp)

theorem walk_dirs_go_split {cfg : WalkConfig}
    {recurse : Path → List FSEntry → Except String (List HerkulesEntry)}
    (hincl : cfg.include_directories = true) :
    ∀ {l : List (HerkulesEntry × FSEntry)} {res : List HerkulesEntry}
      {entry : HerkulesEntry} {node : FSEntry},
      walk_dirs_go cfg recurse l = .ok res → (entry, node) ∈ l →
      ∃ deep u v, recurse entry.path node.children = .ok deep ∧
        res = u ++ entry :: (deep ++ v) := by
  intro l
  induction l with
  | nil =>
    intro res entry node _ hmem
    cases hmem
  | cons pr rest ih =>
    intro res entry node h hmem
    obtain ⟨e0, n0⟩ := pr
    obtain ⟨deep, rest_found, hd, hr, he⟩ := walk_dirs_go_ok_cons h
    rcases List.mem_cons.mp hmem with heq | hmem
    · injection heq with he1 hn1
      subst he1
      subst hn1
      refine ⟨deep, [], rest_found, hd, ?_⟩
      rw [he, hincl]
      simp
    · obtain ⟨deep', u', v', hd', he'⟩ := ih hr hmem
      refine ⟨deep', ((if cfg.include_directories then [e0] else []) ++ deep) ++ u', v', hd', ?_⟩
      rw [he, he']
      simp [List.append_assoc]

end Walk

namespace Walk

/-! ## Walker: structure of a successful walk -/

theorem walk_fuel_succ_ok {cfg : WalkConfig} {fuel : Nat} {root : Path}
    {children : List FSEntry} {res : List HerkulesEntry}
    (h : walk_fuel cfg (fuel + 1) root children = .ok res) :
    ∃ ds fs deep, level_buckets cfg root children = .ok (ds, fs) ∧
      walk_dirs_go cfg (walk_fuel cfg fuel) ds = .ok deep ∧
      res = (if cfg.directories_first then [] else fs) ++ deep ++
            (if cfg.directories_first then fs else []) := by
  cases hbk : level_buckets cfg root children with
  | error e =>
    simp only [walk_fuel, hbk] at h
    cases h
  | ok pr =>
    obtain ⟨ds, fs⟩ := pr
    simp only [walk_fuel, hbk] at h
    cases hdg : walk_dirs_go cfg (walk_fuel cfg fuel) ds with
    | error e =>
      rw [hdg] at h
      cases h
    | ok deep =>
      rw [hdg] at h
      simp only [Except.ok.injEq] at h
      exact ⟨ds, fs, deep, rfl, hdg, h.symm⟩

/-- The directory loop preserves the subtree-prefix discipline and path
uniqueness, provided the recursion does so for each subtree. -/
theorem walk_dirs_go_paths {cfg : WalkConfig}
    {recurse : Path → List FSEntry → Except String (List HerkulesEntry)}
    {n : Nat}
    (hrec : ∀ (pth : Path) (cs : List FSEntry) (r : List HerkulesEntry),
      fs_wf_list cs = true → recurse pth cs = .ok r →
      (∀ e ∈ r, ∃ c ∈ cs, (pth ++ [c.name]) <+: e.path) ∧
      (r.map (fun e => e.path)).Nodup) :
    ∀ (l : List (HerkulesEntry × FSEntry)) (res : List HerkulesEntry),
      (∀ pr ∈ l, pr.1.path.length = n + 1 ∧ fs_wf_list pr.2.children = true) →
      (l.map (fun pr => pr.1.path)).Nodup →
      walk_dirs_go cfg recurse l = .ok res →
      (∀ e ∈ res, ∃ pr ∈ l, pr.1.path <+: e.path) ∧
      (res.map (fun e => e.path)).Nodup := by
  intro l
  induction l with
  | nil =>
    intro res _ _ h
    simp only [walk_dirs_go, Except.ok.injEq] at h
    subst h
    exact ⟨by simp, by simp⟩
  | cons pr rest ih =>
    intro res hl hnd h
    obtain ⟨entry, node⟩ := pr
    obtain ⟨deep, restres, hd, hr, hres⟩ := walk_dirs_go_ok_cons h
    obtain ⟨hlen, hwfc⟩ := hl (entry, node) (List.mem_cons_self _ _)
    rw [List.map_cons, List.nodup_cons] at hnd
    obtain ⟨hhead, hndrest⟩ := hnd
    obtain ⟨hdpfx, hdnd⟩ := hrec entry.path node.children deep hwfc hd
    obtain ⟨hrpfx, hrnd⟩ := ih restres
      (fun pr hpr => hl pr (List.mem_cons_of_mem _ hpr)) hndrest hr
    have hdeepEx : ∀ e ∈ deep, entry.path <+: e.path ∧ n + 2 ≤ e.path.length := by
      intro e he
      obtain ⟨c, _, hpfx⟩ := hdpfx e he
      constructor
      · exact List.IsPrefix.trans (List.prefix_append entry.path [c.name]) hpfx
      · have := List.IsPrefix.length_le hpfx
        simp only [List.length_append, List.length_singleton, hlen] at this
        omega
    have hrestEx : ∀ e ∈ restres, ∃ pr ∈ rest, pr.1.path <+: e.path ∧
        pr.1.path.length = n + 1 := by
      intro e he
      obtain ⟨pr, hpr, hpfx⟩ := hrpfx e he
      exact ⟨pr, hpr, hpfx, (hl pr (List.mem_cons_of_mem _ hpr)).1⟩
    have hrestNe : ∀ e ∈ restres, e.path ≠ entry.path := by
      intro e he hx
      obtain ⟨pr, hpr, hpfx, hprlen⟩ := hrestEx e he
      rw [hx] at hpfx
      have : pr.1.path = entry.path :=
        List.IsPrefix.eq_of_length hpfx (by rw [hprlen, hlen])
      exact hhead (this ▸ List.mem_map_of_mem (fun pr => pr.1.path) hpr)
    have hdisj : ∀ p, p ∈ deep.map (fun e => e.path) →
        p ∈ restres.map (fun e => e.path) → False := by
      intro p hp1 hp2
      rcases List.mem_map.mp hp1 with ⟨e1, he1, rfl⟩
      rcases List.mem_map.mp hp2 with ⟨e2, he2, hpe⟩
      obtain ⟨hpfx1, _⟩ := hdeepEx e1 he1
      obtain ⟨pr, hpr, hpfx2, hprlen⟩ := hrestEx e2 he2
      rw [hpe] at hpfx2
      have heq : pr.1.path = entry.path := by
        have h1 : pr.1.path <+: entry.path ∨ entry.path <+: pr.1.path := by
          rcases Nat.le_total pr.1.path.length entry.path.length with hle | hle
          · exact Or.inl (List.prefix_of_prefix_length_le hpfx2 hpfx1 hle)
          · exact Or.inr (List.prefix_of_prefix_length_le hpfx1 hpfx2 hle)
        rcases h1 with h1 | h1
        · exact List.IsPrefix.eq_of_length h1 (by rw [hprlen, hlen])
        · exact (List.IsPrefix.eq_of_length h1 (by rw [hprlen, hlen])).symm
      exact hhead (heq ▸ List.mem_map_of_mem (fun pr => pr.1.path) hpr)
    have hdeepNotEntry : ∀ e ∈ deep, e.path ≠ entry.path := by
      intro e he hx
      obtain ⟨_, hlen2⟩ := hdeepEx e he
      rw [hx, hlen] at hlen2
      omega
    constructor
    · intro e he
      rw [hres] at he
      rcases List.mem_append.mp he with he | he
      · rcases List.mem_append.mp he with he | he
        · have : e = entry := by
            cases hincl : cfg.include_directories with
            | true =>
              rw [hincl] at he
              simpa using he
            | false =>
              rw [hincl] at he
              simp at he
          subst this
          exact ⟨(e, node), List.mem_cons_self _ _, List.prefix_refl _⟩
        · obtain ⟨hpfx, _⟩ := hdeepEx e he
          exact ⟨(entry, node), List.mem_cons_self _ _, hpfx⟩
      · obtain ⟨pr, hpr, hpfx⟩ := hrpfx e he
        exact ⟨pr, List.mem_cons_of_mem _ hpr, hpfx⟩
    · rw [hres]
      have hdr : ((deep ++ restres).map (fun e => e.path)).Nodup := by
        rw [List.map_append, List.nodup_append]
        exact ⟨hdnd, hrnd, hdisj⟩
      cases hincl : cfg.include_directories with
      | true =>
        have hres2 : (if true = true then [entry] else []) ++ deep ++
            restres = entry :: (deep ++ restres) := by simp
        rw [hres2, List.map_cons, List.nodup_cons]
        refine ⟨?_, hdr⟩
        intro hx
        rw [List.map_append] at hx
        rcases List.mem_append.mp hx with hx | hx
        · rcases List.mem_map.mp hx with ⟨e, he, hpe⟩
          exact hdeepNotEntry e he hpe
        · rcases List.mem_map.mp hx with ⟨e, he, hpe⟩
          exact hrestNe e he hpe
      | false =>
        have hres2 : (if false = true then [entry] else []) ++ deep ++
            restres = deep ++ restres := by simp
        rw [hres2]
        exact hdr

/-- Every entry of a successful walk lies in the subtree of some child of
the root, and no two entries of the result share a path. -/
theorem walk_fuel_paths (cfg : WalkConfig) :
    ∀ (fuel : Nat) (root : Path) (children : List FSEntry) (res : List HerkulesEntry),
      fs_wf_list children = true →
      walk_fuel cfg fuel root children = .ok res →
      (∀ e ∈ res, ∃ c ∈ children, (root ++ [c.name]) <+: e.path) ∧
      (res.map (fun e => e.path)).Nodup := by
  intro fuel
  induction fuel with
  | zero =>
    intro root children res _ h
    cases h
  | succ fuel ih =>
    intro root children res hwf h
    obtain ⟨ds, fs, deep, hbk, hdg, hres⟩ := walk_fuel_succ_ok h
    obtain ⟨hdf, hff, hnd⟩ := level_buckets_facts hwf hbk
    rw [List.nodup_append] at hnd
    obtain ⟨hndd, hndf, hdisjdf⟩ := hnd
    have hdlen : ∀ pr ∈ ds, pr.1.path.length = root.length + 1 ∧
        fs_wf_list pr.2.children = true := by
      intro pr hpr
      obtain ⟨hmem, _, hp⟩ := hdf pr hpr
      constructor
      · rw [hp]
        simp
      · exact fs_wf_children (fs_wf_list_mem hwf hmem)
    obtain ⟨hdeepPfx, hdeepNd⟩ := walk_dirs_go_paths
      (fun pth cs r hwfcs hok => ih pth cs r hwfcs hok) ds deep hdlen hndd hdg
    have hflen : ∀ e ∈ fs, e.path.length = root.length + 1 := by
      intro e he
      obtain ⟨c, _, _, hp⟩ := hff e he
      rw [hp]
      simp
    have hdisj : ∀ p, p ∈ deep.map (fun e => e.path) →
        p ∈ fs.map (fun e => e.path) → False := by
      intro p hp1 hp2
      rcases List.mem_map.mp hp1 with ⟨e1, he1, rfl⟩
      obtain ⟨pr, hpr, hpfx⟩ := hdeepPfx e1 he1
      have hprlen := (hdlen pr hpr).1
      have hplen : e1.path.length = root.length + 1 := by
        rcases List.mem_map.mp hp2 with ⟨e2, he2, hpe⟩
        rw [← hpe]
        exact hflen e2 he2
      have heq : pr.1.path = e1.path :=
        List.IsPrefix.eq_of_length hpfx (by rw [hprlen, hplen])
      refine hdisjdf (List.mem_map_of_mem (fun pr => pr.1.path) hpr) ?_
      rw [heq]
      exact hp2
    have hmemc : ∀ e, e ∈ deep ++ fs → ∃ c ∈ children, (root ++ [c.name]) <+: e.path := by
      intro e he
      rcases List.mem_append.mp he with he | he
      · obtain ⟨pr, hpr, hpfx⟩ := hdeepPfx e he
        obtain ⟨hmem, _, hp⟩ := hdf pr hpr
        exact ⟨pr.2, hmem, hp ▸ hpfx⟩
      · obtain ⟨c, hc, _, hp⟩ := hff e he
        exact ⟨c, hc, by rw [hp]⟩
    cases hdfq : cfg.directories_first with
    | true =>
      rw [hdfq] at hres
      simp at hres
      subst hres
      constructor
      · intro e he
        exact hmemc e he
      · rw [List.map_append, List.nodup_append]
        exact ⟨hdeepNd, hndf, hdisj⟩
    | false =>
      rw [hdfq] at hres
      simp at hres
      subst hres
      constructor
      · intro e he
        exact hmemc e (List.mem_append.mpr (Or.symm (List.mem_append.mp he)))
      · rw [List.map_append, List.nodup_append]
        exact ⟨hndf, hdeepNd, fun p hp1 hp2 => hdisj p hp2 hp1⟩

theorem herkules_recurse_ok {cfg : WalkConfig} {root : Path} {children : List FSEntry}
    {res : List HerkulesEntry} (h : herkules_recurse cfg root children = .ok res) :
    ∃ ds fs deep, level_buckets cfg root children = .ok (ds, fs) ∧
      walk_dirs_go cfg (walk_fuel cfg (fs_depth_list children)) ds = .ok deep ∧
      res = (if cfg.directories_first then [] else fs) ++ deep ++
            (if cfg.directories_first then fs else []) :=
  walk_fuel_succ_ok h

theorem herkules_recurse_paths {cfg : WalkConfig} {root : Path} {children : List FSEntry}
    {res : List HerkulesEntry} (hwf : fs_wf_list children = true)
    (h : herkules_recurse cfg root children = .ok res) :
    (∀ e ∈ res, ∃ c ∈ children, (root ++ [c.name]) <+: e.path) ∧
    (res.map (fun e => e.path)).Nodup :=
  walk_fuel_paths cfg _ root children res hwf h

/-! ## Walker: the two orders of `directories_first` -/

theorem walk_fuel_perm (cfg : WalkConfig) :
    ∀ (fuel : Nat) (root : Path) (children : List FSEntry) (r1 r2 : List HerkulesEntry),
      walk_fuel {cfg with directories_first := true} fuel root children = .ok r1 →
      walk_fuel {cfg with directories_first := false} fuel root children = .ok r2 →
      r1.Perm r2 := by
  intro fuel
  induction fuel with
  | zero =>
    intro root children r1 r2 h1
    cases h1
  | succ fuel ih =>
    intro root children r1 r2 h1 h2
    obtain ⟨ds1, fs1, deep1, hbk1, hdg1, hres1⟩ := walk_fuel_succ_ok h1
    obtain ⟨ds2, fs2, deep2, hbk2, hdg2, hres2⟩ := walk_fuel_succ_ok h2
    have hbe : level_buckets {cfg with directories_first := true} root children =
        level_buckets {cfg with directories_first := false} root children := rfl
    rw [hbe, hbk2, Except.ok.injEq, Prod.mk.injEq] at hbk1
    obtain ⟨hdseq, hfseq⟩ := hbk1
    subst hdseq
    subst hfseq
    have hdperm : deep1.Perm deep2 :=
      walk_dirs_go_perm
        (show ({cfg with directories_first := true} : WalkConfig).include_directories =
          ({cfg with directories_first := false} : WalkConfig).include_directories from rfl)
        ds2
        (fun pr _ d1 d2 hx1 hx2 => ih pr.1.path pr.2.children d1 d2 hx1 hx2) hdg1 hdg2
    rw [show ({cfg with directories_first := true} : WalkConfig).directories_first
      = true from rfl] at hres1
    rw [show ({cfg with directories_first := false} : WalkConfig).directories_first
      = false from rfl] at hres2
    simp at hres1 hres2
    subst hres1
    subst hres2
    exact (hdperm.append (List.Perm.refl fs2)).trans List.perm_append_comm

/-! ## Walker: fuel does not matter above the tree depth -/

theorem walk_fuel_irrel (cfg : WalkConfig) :
    ∀ (fuel1 fuel2 : Nat) (root : Path) (children : List FSEntry),
      fs_depth_list children < fuel1 → fs_depth_list children < fuel2 →
      walk_fuel cfg fuel1 root children = walk_fuel cfg fuel2 root children := by
  intro fuel1
  induction fuel1 with
  | zero =>
    intro fuel2 root children h1
    exact absurd h1 (Nat.not_lt_zero _)
  | succ f1 ih =>
    intro fuel2 root children h1 h2
    cases fuel2 with
    | zero => exact absurd h2 (Nat.not_lt_zero _)
    | succ f2 =>
      cases hbk : level_buckets cfg root children with
      | error e => simp [walk_fuel, hbk]
      | ok pr =>
        obtain ⟨ds, fs⟩ := pr
        have hcong : walk_dirs_go cfg (walk_fuel cfg f1) ds =
            walk_dirs_go cfg (walk_fuel cfg f2) ds := by
          apply walk_dirs_go_congr
          intro p hp
          obtain ⟨ds0, fs0, hproc, hds, _⟩ := level_buckets_ok hbk
          have hmem : p ∈ ds0 := by
            rw [hds] at hp
            exact mem_insertion_sort.mp hp
          obtain ⟨hmemc, hdir, _⟩ := (herkules_process_ok hproc).1 p hmem
          have hdepth : fs_depth_list p.2.children + 1 ≤ fs_depth_list children := by
            rw [fs_depth_dir_children hdir]
            exact fs_depth_list_mem hmemc
          exact ih f2 p.1.path p.2.children (by omega) (by omega)
        simp [walk_fuel, hbk, hcong]

end Walk

namespace Walk

/-! ## Walker: directory entries are kept in bucket order -/

theorem walk_dirs_go_dirs_sublist {cfg : WalkConfig}
    {recurse : Path → List FSEntry → Except String (List HerkulesEntry)}
    (hincl : cfg.include_directories = true) :
    ∀ {l : List (HerkulesEntry × FSEntry)} {res : List HerkulesEntry},
      walk_dirs_go cfg recurse l = .ok res →
      (l.map (fun pr => pr.1)).Sublist res := by
  intro l
  induction l with
  | nil =>
    intro res h
    simp only [walk_dirs_go, Except.ok.injEq] at h
    subst h
    simp
  | cons pr rest ih =>
    intro res h
    obtain ⟨entry, node⟩ := pr
    obtain ⟨deep, rf, hd, hr, he⟩ := walk_dirs_go_ok_cons h
    subst he
    rw [hincl]
    have hshape : (if (true : Bool) = true then [entry] else []) ++ deep ++ rf =
        entry :: (deep ++ rf) := by simp
    rw [hshape]
    simp only [List.map_cons]
    exact List.Sublist.cons₂ entry ((ih hr).trans (List.sublist_append_right deep rf))

/-! ## Walker: the prepared trivial selector excludes nothing -/

theorem is_directory_included_trivial (p : Path) (c : FSEntry) (mt : Option Rat) :
    is_directory_included p c ⟨[], [], ["*"]⟩ none mt = .ok c.isDir := by
  cases c with
  | file n m => rfl
  | dir n m cs => rfl

theorem is_file_included_trivial (p : Path) (c : FSEntry) (mt : Option Rat) :
    is_file_included p c ⟨[], [], ["*"]⟩ none mt = .ok c.isFile := by
  cases c with
  | dir n m cs => rfl
  | file n m =>
    simp [is_file_included, FSEntry.isFile, path_match_star, is_modified]

theorem herkules_process_trivial (root : Path) (cst : Bool) :
    ∀ children : List FSEntry,
      herkules_process root children ⟨[], [], ["*"]⟩ none cst =
        .ok ((children.filter (fun c => c.isDir)).map
               (fun c => (⟨root ++ [c.name], if cst then some c.mtime else none⟩, c)),
             (children.filter (fun c => c.isFile)).map
               (fun c => (⟨root ++ [c.name], if cst then some c.mtime else none⟩ :
                  HerkulesEntry))) := by
  intro children
  induction children with
  | nil => rfl
  | cons child rest ih =>
    have hmt : (if cst || py_truthy none then some child.mtime else none) =
        (if cst then some child.mtime else none) := by
      cases cst <;> rfl
    cases child with
    | dir n m cs =>
      simp only [herkules_process, is_directory_included_trivial, except_bind_ok, hmt, ih,
        except_pure_eq, FSEntry.isDir, FSEntry.isFile, FSEntry.name, FSEntry.mtime,
        List.filter_cons, List.map_cons]
      simp [py_truthy]
    | file n m =>
      simp only [herkules_process, is_directory_included_trivial, is_file_included_trivial,
        except_bind_ok, hmt, ih, except_pure_eq, FSEntry.isDir, FSEntry.isFile,
        FSEntry.name, FSEntry.mtime, List.filter_cons, List.map_cons]
      simp [py_truthy]

/-- The per-level trivial buckets, flattened with the recursive contents of
each directory, are a permutation of all reachable paths. -/
theorem trivial_buckets_paths_perm (incl : Bool) (root : Path) :
    ∀ children : List FSEntry,
      ((children.filter (fun c => c.isFile)).map (fun c => root ++ [c.name]) ++
       (children.filter (fun c => c.isDir)).flatMap
         (fun c => (if incl then [root ++ [c.name]] else []) ++
            all_paths_list incl (root ++ [c.name]) c.children)).Perm
        (all_paths_list incl root children) := by
  intro children
  induction children with
  | nil => simp [all_paths_list]
  | cons child rest ih =>
    cases child with
    | file n m =>
      simp only [all_paths_list, all_paths_entry, List.filter_cons, FSEntry.isFile,
        FSEntry.isDir, FSEntry.name, List.map_cons, eq_self_iff_true, if_true,
        Bool.false_eq_true, if_false, List.cons_append, List.singleton_append]
      exact ih.cons _
    | dir n m cs =>
      simp only [all_paths_list, all_paths_entry, List.filter_cons, FSEntry.isFile,
        FSEntry.isDir, FSEntry.name, FSEntry.children, List.flatMap_cons, List.map_cons,
        eq_self_iff_true, if_true, Bool.false_eq_true, if_false, List.append_assoc]
      refine List.Perm.trans List.perm_append_comm ?_
      simp only [List.append_assoc]
      exact (List.Perm.refl _).append ((List.Perm.refl _).append
        (List.perm_append_comm.trans ih))

/-- The directory loop, when every recursive call enumerates exactly the
paths of its subtree, enumerates the per-directory blocks. -/
theorem walk_dirs_go_flat_perm {cfg : WalkConfig}
    {recurse : Path → List FSEntry → Except String (List HerkulesEntry)} {incl : Bool}
    (hincl : cfg.include_directories = incl)
    (hrec : ∀ (pr : HerkulesEntry × FSEntry) (r : List HerkulesEntry),
      recurse pr.1.path pr.2.children = .ok r →
      (r.map (fun e => e.path)).Perm (all_paths_list incl pr.1.path pr.2.children)) :
    ∀ {l : List (HerkulesEntry × FSEntry)} {res : List HerkulesEntry},
      walk_dirs_go cfg recurse l = .ok res →
      (res.map (fun e => e.path)).Perm
        (l.flatMap (fun pr => (if incl then [pr.1.path] else []) ++
          all_paths_list incl pr.1.path pr.2.children)) := by
  intro l
  induction l with
  | nil =>
    intro res h
    simp only [walk_dirs_go, Except.ok.injEq] at h
    subst h
    simp
  | cons pr rest ih =>
    intro res h
    obtain ⟨entry, node⟩ := pr
    obtain ⟨deep, rf, hd, hr, he⟩ := walk_dirs_go_ok_cons h
    subst he
    have hde := hrec (entry, node) deep hd
    have hra := ih hr
    rw [hincl, List.flatMap_cons]
    simp only [List.map_append, List.append_assoc, apply_ite (List.map (fun e : HerkulesEntry => e.path)),
      List.map_cons, List.map_nil]
    exact (List.Perm.refl _).append (hde.append hra)

/-- A walk under the prepared trivial selector (no exclusions, glob `*`)
enumerates exactly the reachable paths. -/
theorem walk_fuel_trivial_perm (df incl fsym cst : Bool) :
    ∀ (fuel : Nat) (root : Path) (children : List FSEntry) (res : List HerkulesEntry),
      walk_fuel ⟨df, incl, fsym, ⟨[], [], ["*"]⟩, none, cst⟩ fuel root children = .ok res →
      (res.map (fun e => e.path)).Perm (all_paths_list incl root children) := by
  intro fuel
  induction fuel with
  | zero =>
    intro root children res h
    cases h
  | succ fuel ih =>
    intro root children res h
    obtain ⟨ds, fs, deep, hbk, hdg, hres⟩ := walk_fuel_succ_ok h
    obtain ⟨ds0, fs0, hp, hds, hfs⟩ := level_buckets_ok hbk
    have hp' : herkules_process root children ⟨[], [], ["*"]⟩ none cst = .ok (ds0, fs0) := hp
    rw [herkules_process_trivial root cst children, Except.ok.injEq, Prod.mk.injEq] at hp'
    obtain ⟨hds0, hfs0⟩ := hp'
    have hpermd : ds.Perm ds0 := by
      rw [hds]
      exact insertion_sort_perm _ ds0
    have hpermf : fs.Perm fs0 := by
      rw [hfs]
      exact insertion_sort_perm _ fs0
    have hflat := walk_dirs_go_flat_perm rfl
      (fun pr r hx => ih pr.1.path pr.2.children r hx) hdg
    have hdeep2 : (deep.map (fun e => e.path)).Perm
        ((children.filter (fun c => c.isDir)).flatMap
          (fun c => (if incl then [root ++ [c.name]] else []) ++
            all_paths_list incl (root ++ [c.name]) c.children)) := by
      refine hflat.trans ?_
      refine ((hpermd.flatMap_right _).trans ?_)
      rw [← hds0, List.flatMap_map]
    have hfiles2 : (fs.map (fun e => e.path)).Perm
        ((children.filter (fun c => c.isFile)).map (fun c => root ++ [c.name])) := by
      refine (hpermf.map _).trans ?_
      rw [← hfs0, List.map_map]
      exact List.Perm.refl _
    have hcomb : ((fs.map (fun e => e.path)) ++ (deep.map (fun e => e.path))).Perm
        (all_paths_list incl root children) :=
      (hfiles2.append hdeep2).trans (trivial_buckets_paths_perm incl root children)
    have hres' : res = (if df = true then [] else fs) ++ deep ++
        (if df = true then fs else []) := hres
    cases df with
    | true =>
      simp at hres'
      subst hres'
      rw [List.map_append]
      exact List.perm_append_comm.trans hcomb
    | false =>
      simp at hres'
      subst hres'
      rw [List.map_append]
      exact hcomb

end Walk

open Walk

/-- C3: the claim fails on the program as written. The claim says that whenever
`modified_since` is set a modification time is fetched for every child, even
when `call_stat` (collect_metadata) is false. In the code the fetch is guarded
by Python truthiness (`if call_stat or modified_since:`), and the timestamp
`0.0` is falsy, so with `modified_since = 0.0` and `call_stat = false` no
modification time is fetched and the walk crashes on the
`assert modification_time_in_seconds is not None` inside `_is_modified`
instead of including every entry (every mtime is ≥ 0). The first conjunct
exhibits this on a one-file tree; the second conjunct shows the cutoff
comparison itself is `modified_since ≤ mtime` (i.e. mtime ≥ cutoff) whenever a
modification time is present, as claimed; the third isolates the root cause:
the guard treats `some 0` as unset. -/
theorem C3_modified_since_zero_skips_stat :
    (herkules_recurse ⟨true, false, false, ⟨[], [], ["*"]⟩, some 0, false⟩ []
        [FSEntry.file "a" 5] =
      .error "AssertionError: modification_time_in_seconds is None") ∧
    (∀ since mt : Rat, is_modified (some since) (some mt) = .ok (decide (since ≤ mt))) ∧
    py_truthy (some 0) = false := by
  refine ⟨by decide, fun since mt => rfl, rfl⟩

/-- C7: flipping only `directories_first` yields a permutation of the same
entry set; and for every file entry `a` of the current level (the sorted
file bucket `fs`) and every entry `b` of the result that belongs to a
subtree rooted at this level (its path extends the path of one of the
level's directory entries `ds`), `b` precedes `a` in the
directories-first result `r1` and `a` precedes `b` in the files-first
result `r2` — the relative order of the two is exactly reversed. -/
theorem C7_directories_first_flip (cfg : WalkConfig) (root : Path) (children : List FSEntry)
    (ds : List (HerkulesEntry × FSEntry)) (fs : List HerkulesEntry)
    (r1 r2 : List HerkulesEntry)
    (hwf : fs_wf_list children = true)
    (hbk : level_buckets {cfg with directories_first := true} root children = .ok (ds, fs))
    (h1 : herkules_recurse {cfg with directories_first := true} root children = .ok r1)
    (h2 : herkules_recurse {cfg with directories_first := false} root children = .ok r2) :
    r1.Perm r2 ∧
    ∀ a ∈ fs, ∀ b ∈ r1, (∃ pr ∈ ds, pr.1.path <+: b.path) →
      precedes b.path a.path r1 ∧ precedes a.path b.path r2 := by
  refine ⟨walk_fuel_perm cfg _ root children r1 r2 h1 h2, ?_⟩
  obtain ⟨ds1, fs1, deep1, hbk1, hdg1, hres1⟩ := herkules_recurse_ok h1
  obtain ⟨ds2, fs2, deep2, hbk2, hdg2, hres2⟩ := herkules_recurse_ok h2
  rw [hbk, Except.ok.injEq, Prod.mk.injEq] at hbk1
  obtain ⟨hda, hfa⟩ := hbk1
  subst hda
  subst hfa
  have hbe : level_buckets {cfg with directories_first := false} root children =
      level_buckets {cfg with directories_first := true} root children := rfl
  rw [hbe, hbk, Except.ok.injEq, Prod.mk.injEq] at hbk2
  obtain ⟨hda2, hfa2⟩ := hbk2
  subst hda2
  subst hfa2
  rw [show ({cfg with directories_first := true} : WalkConfig).directories_first
    = true from rfl] at hres1
  simp at hres1
  rw [show ({cfg with directories_first := false} : WalkConfig).directories_first
    = false from rfl] at hres2
  simp at hres2
  obtain ⟨hdf, hff, hnd⟩ := level_buckets_facts hwf hbk
  rw [List.nodup_append] at hnd
  obtain ⟨hndd, hndf, hdisjdf⟩ := hnd
  have hflen : ∀ e ∈ fs, e.path.length = root.length + 1 := by
    intro e he
    obtain ⟨c, _, _, hp⟩ := hff e he
    rw [hp]
    simp
  have hdlen : ∀ pr ∈ ds, pr.1.path.length = root.length + 1 := by
    intro pr hpr
    rw [(hdf pr hpr).2.2]
    simp
  have hdpairs : ∀ pr ∈ ds, pr.1.path.length = root.length + 1 ∧
      fs_wf_list pr.2.children = true := by
    intro pr hpr
    exact ⟨hdlen pr hpr, fs_wf_children (fs_wf_list_mem hwf (hdf pr hpr).1)⟩
  have hdeepPfx1 : ∀ e ∈ deep1, ∃ pr ∈ ds, pr.1.path <+: e.path :=
    (walk_dirs_go_paths (fun pth cs r hwfcs hok => walk_fuel_paths _ _ pth cs r hwfcs hok)
      ds deep1 hdpairs hndd hdg1).1
  have hkey : ∀ (x : Path), (∃ pr ∈ ds, pr.1.path <+: x) → ∀ e ∈ fs, e.path ≠ x := by
    rintro x ⟨pr, hpr, hpfx⟩ e he hx
    have heq : pr.1.path = x :=
      List.IsPrefix.eq_of_length hpfx (by rw [hdlen pr hpr, ← hx, hflen e he])
    refine hdisjdf (List.mem_map_of_mem (fun pr => pr.1.path) hpr) ?_
    rw [heq, ← hx]
    exact List.mem_map_of_mem (fun e => e.path) he
  intro a ha b hb hbpfx
  have hbdeep1 : b ∈ deep1 := by
    rw [hres1] at hb
    rcases List.mem_append.mp hb with hb | hb
    · exact hb
    · exact absurd rfl (hkey b.path hbpfx b hb)
  constructor
  · rw [hres1]
    refine precedes_append hbdeep1 ?_
    intro e he hx
    exact hkey e.path (hdeepPfx1 e he) a ha hx.symm
  · rw [hres2]
    exact precedes_append ha (hkey b.path hbpfx)

theorem C7_witness :
    ([⟨["a"], some 1⟩, ⟨["a","x"], some 2⟩, ⟨["b"], some 4⟩, ⟨["z"], some 3⟩] :
        List HerkulesEntry).Perm
      [⟨["b"], some 4⟩, ⟨["z"], some 3⟩, ⟨["a"], some 1⟩, ⟨["a","x"], some 2⟩] ∧
    ∀ a ∈ ([⟨["b"], some 4⟩, ⟨["z"], some 3⟩] : List HerkulesEntry),
      ∀ b ∈ ([⟨["a"], some 1⟩, ⟨["a","x"], some 2⟩, ⟨["b"], some 4⟩, ⟨["z"], some 3⟩] :
          List HerkulesEntry),
      (∃ pr ∈ ([(⟨["a"], some 1⟩, FSEntry.dir "a" 1 [FSEntry.file "x" 2])] :
          List (HerkulesEntry × FSEntry)), pr.1.path <+: b.path) →
      precedes b.path a.path
          [⟨["a"], some 1⟩, ⟨["a","x"], some 2⟩, ⟨["b"], some 4⟩, ⟨["z"], some 3⟩] ∧
      precedes a.path b.path
          [⟨["b"], some 4⟩, ⟨["z"], some 3⟩, ⟨["a"], some 1⟩, ⟨["a","x"], some 2⟩] :=
  C7_directories_first_flip ⟨true, true, false, ⟨[], [], ["*"]⟩, none, true⟩ []
    [.file "z" 3, .dir "a" 1 [.file "x" 2], .file "b" 4]
    [(⟨["a"], some 1⟩, .dir "a" 1 [.file "x" 2])]
    [⟨["b"], some 4⟩, ⟨["z"], some 3⟩]
    [⟨["a"], some 1⟩, ⟨["a","x"], some 2⟩, ⟨["b"], some 4⟩, ⟨["z"], some 3⟩]
    [⟨["b"], some 4⟩, ⟨["z"], some 3⟩, ⟨["a"], some 1⟩, ⟨["a","x"], some 2⟩]
    (by decide) rfl (by decide) (by decide)

/-- C8: at every directory level of a successful walk, the sorted directory
bucket `ds` and the sorted file bucket `fs` are each in strictly ascending
lexicographic order of their full paths (`path_le` and all paths distinct),
the file bucket occurs in the result in exactly that order (it is a
sublist), and when `include_directories` is set the directory entries also
occur in the result in exactly bucket order (each heading its own subtree
block, which therefore keeps the blocks in the same ascending order). -/
theorem C8_level_buckets_strictly_sorted (cfg : WalkConfig) (root : Path)
    (children : List FSEntry) (ds : List (HerkulesEntry × FSEntry)) (fs : List HerkulesEntry)
    (res : List HerkulesEntry)
    (hwf : fs_wf_list children = true)
    (hbk : level_buckets cfg root children = .ok (ds, fs))
    (hres : herkules_recurse cfg root children = .ok res) :
    (ds.map (fun pr => pr.1.path)).Pairwise (fun p q => path_le p q = true ∧ p ≠ q) ∧
    (fs.map (fun e => e.path)).Pairwise (fun p q => path_le p q = true ∧ p ≠ q) ∧
    fs.Sublist res ∧
    (cfg.include_directories = true → (ds.map (fun pr => pr.1)).Sublist res) := by
  obtain ⟨hsd, hsf⟩ := level_buckets_sorted hbk
  have hnd := (level_buckets_facts hwf hbk).2.2
  rw [List.nodup_append] at hnd
  obtain ⟨hndd, hndf, _⟩ := hnd
  obtain ⟨ds1, fs1, deep, hbk1, hdg, hres1⟩ := herkules_recurse_ok hres
  rw [hbk, Except.ok.injEq, Prod.mk.injEq] at hbk1
  obtain ⟨hds1, hfs1⟩ := hbk1
  subst hds1
  subst hfs1
  subst hres1
  refine ⟨hsd.and hndd, hsf.and hndf, ?_, ?_⟩
  · cases hdfq : cfg.directories_first with
    | true =>
      have hshape : (if (true : Bool) = true then ([] : List HerkulesEntry) else fs) ++ deep ++
          (if (true : Bool) = true then fs else []) = deep ++ fs := by simp
      rw [hshape]
      exact List.sublist_append_right deep fs
    | false =>
      have hshape : (if (false : Bool) = true then ([] : List HerkulesEntry) else fs) ++ deep ++
          (if (false : Bool) = true then fs else []) = fs ++ deep := by simp
      rw [hshape]
      exact List.sublist_append_left fs deep
  · intro hincl
    have hsub := walk_dirs_go_dirs_sublist hincl hdg
    cases hdfq : cfg.directories_first with
    | true =>
      have hshape : (if (true : Bool) = true then ([] : List HerkulesEntry) else fs) ++ deep ++
          (if (true : Bool) = true then fs else []) = deep ++ fs := by simp
      rw [hshape]
      exact hsub.trans (List.sublist_append_left deep fs)
    | false =>
      have hshape : (if (false : Bool) = true then ([] : List HerkulesEntry) else fs) ++ deep ++
          (if (false : Bool) = true then fs else []) = fs ++ deep := by simp
      rw [hshape]
      exact hsub.trans (List.sublist_append_right fs deep)

theorem C8_witness :
    (([(⟨["a"], some 1⟩, FSEntry.dir "a" 1 [FSEntry.file "x" 2])] :
        List (HerkulesEntry × FSEntry)).map (fun pr => pr.1.path)).Pairwise
      (fun p q => path_le p q = true ∧ p ≠ q) ∧
    (([⟨["b"], some 4⟩, ⟨["z"], some 3⟩] : List HerkulesEntry).map
        (fun e => e.path)).Pairwise (fun p q => path_le p q = true ∧ p ≠ q) ∧
    ([⟨["b"], some 4⟩, ⟨["z"], some 3⟩] : List HerkulesEntry).Sublist
      [⟨["a"], some 1⟩, ⟨["a","x"], some 2⟩, ⟨["b"], some 4⟩, ⟨["z"], some 3⟩] ∧
    ((⟨true, true, false, ⟨[], [], ["*"]⟩, none, true⟩ :
        WalkConfig).include_directories = true →
      (([(⟨["a"], some 1⟩, FSEntry.dir "a" 1 [FSEntry.file "x" 2])] :
          List (HerkulesEntry × FSEntry)).map (fun pr => pr.1)).Sublist
        [⟨["a"], some 1⟩, ⟨["a","x"], some 2⟩, ⟨["b"], some 4⟩, ⟨["z"], some 3⟩]) :=
  C8_level_buckets_strictly_sorted ⟨true, true, false, ⟨[], [], ["*"]⟩, none, true⟩ []
    [.file "z" 3, .dir "a" 1 [.file "x" 2], .file "b" 4]
    [(⟨["a"], some 1⟩, .dir "a" 1 [.file "x" 2])]
    [⟨["b"], some 4⟩, ⟨["z"], some 3⟩]
    [⟨["a"], some 1⟩, ⟨["a","x"], some 2⟩, ⟨["b"], some 4⟩, ⟨["z"], some 3⟩]
    (by decide) rfl (by decide)

/-- C9: a walk whose selector has empty exclusion and inclusion sets (the
public entry point normalizes the empty inclusion list to the
match-everything glob) returns an entry for every reachable file — and,
when `include_directories` is set, for every reachable directory — exactly
once: the result's paths are a permutation of all reachable paths, and in
particular duplicate-free. -/
theorem C9_trivial_selector_exactly_once (df incl fsym cst : Bool) (root : Path)
    (children : List FSEntry) (res : List HerkulesEntry)
    (hwf : fs_wf_list children = true)
    (h : herkules_with_metadata ⟨df, incl, fsym, ⟨[], [], []⟩, none, cst⟩ root children =
      .ok res) :
    (res.map (fun e => e.path)).Perm (all_paths_list incl root children) ∧
    (res.map (fun e => e.path)).Nodup := by
  have h' : herkules_recurse ⟨df, incl, fsym, ⟨[], [], ["*"]⟩, none, cst⟩ root children =
      .ok res := h
  exact ⟨walk_fuel_trivial_perm df incl fsym cst _ root children res h',
    (herkules_recurse_paths hwf h').2⟩

theorem C9_witness :
    (([⟨["a"], some 1⟩, ⟨["a","x"], some 2⟩, ⟨["b"], some 4⟩, ⟨["z"], some 3⟩] :
        List HerkulesEntry).map (fun e => e.path)).Perm
      (all_paths_list true []
        [FSEntry.file "z" 3, FSEntry.dir "a" 1 [FSEntry.file "x" 2], FSEntry.file "b" 4]) ∧
    (([⟨["a"], some 1⟩, ⟨["a","x"], some 2⟩, ⟨["b"], some 4⟩, ⟨["z"], some 3⟩] :
        List HerkulesEntry).map (fun e => e.path)).Nodup :=
  C9_trivial_selector_exactly_once true true false true []
    [.file "z" 3, .dir "a" 1 [.file "x" 2], .file "b" 4]
    [⟨["a"], some 1⟩, ⟨["a","x"], some 2⟩, ⟨["b"], some 4⟩, ⟨["z"], some 3⟩]
    (by decide) (by decide)

/-- C10: with `include_directories` set, each directory entry of a level
appears in the result immediately before the recursively collected
entries of its own subtree (the walk of its children), for any value of
`directories_first` — the flag is quantified over freely in `cfg`, so both
orders are covered. -/
theorem C10_dir_entry_heads_its_subtree (cfg : WalkConfig) (root : Path)
    (children : List FSEntry) (ds : List (HerkulesEntry × FSEntry)) (fs : List HerkulesEntry)
    (res : List HerkulesEntry) (entry : HerkulesEntry) (node : FSEntry)
    (hincl : cfg.include_directories = true)
    (hwf : fs_wf_list children = true)
    (hbk : level_buckets cfg root children = .ok (ds, fs))
    (hres : herkules_recurse cfg root children = .ok res)
    (hmem : (entry, node) ∈ ds) :
    ∃ deep u v, herkules_recurse cfg entry.path node.children = .ok deep ∧
      res = u ++ entry :: (deep ++ v) := by
  obtain ⟨ds1, fs1, deep0, hbk1, hdg, hres1⟩ := herkules_recurse_ok hres
  rw [hbk, Except.ok.injEq, Prod.mk.injEq] at hbk1
  obtain ⟨hds1, hfs1⟩ := hbk1
  subst hds1
  subst hfs1
  obtain ⟨deep, u, v, hrec, hsplit⟩ := walk_dirs_go_split hincl hdg hmem
  have hnodedepth : fs_depth_list node.children + 1 ≤ fs_depth_list children := by
    have hmemc := ((level_buckets_facts hwf hbk).1 (entry, node) hmem)
    rw [fs_depth_dir_children hmemc.2.1]
    exact fs_depth_list_mem hmemc.1
  have hirr := walk_fuel_irrel cfg (fs_depth_list children) (fs_depth_list node.children + 1)
    entry.path node.children (by omega) (by omega)
  rw [hirr] at hrec
  refine ⟨deep, (if cfg.directories_first then [] else fs) ++ u,
    v ++ (if cfg.directories_first then fs else []), hrec, ?_⟩
  rw [hres1, hsplit]
  simp [List.append_assoc]

theorem C10_witness :
    ∃ deep u v,
      herkules_recurse ⟨true, true, false, ⟨[], [], ["*"]⟩, none, true⟩ ["a"]
          [FSEntry.file "x" 2] = .ok deep ∧
      ([⟨["a"], some 1⟩, ⟨["a","x"], some 2⟩, ⟨["b"], some 4⟩, ⟨["z"], some 3⟩] :
          List HerkulesEntry) = u ++ (⟨["a"], some 1⟩ : HerkulesEntry) :: (deep ++ v) :=
  C10_dir_entry_heads_its_subtree ⟨true, true, false, ⟨[], [], ["*"]⟩, none, true⟩ []
    [.file "z" 3, .dir "a" 1 [.file "x" 2], .file "b" 4]
    [(⟨["a"], some 1⟩, .dir "a" 1 [.file "x" 2])]
    [⟨["b"], some 4⟩, ⟨["z"], some 3⟩]
    [⟨["a"], some 1⟩, ⟨["a","x"], some 2⟩, ⟨["b"], some 4⟩, ⟨["z"], some 3⟩]
    ⟨["a"], some 1⟩ (.dir "a" 1 [.file "x" 2])
    rfl (by decide) rfl (by decide) (List.mem_cons_self _ _)

end Herkules


